import Mathlib

/-!
Verification of the clearance-aware grid pathfinder from
`src/examples/others/pathfinding_sdf_enhanced.c`.

The C source works over a fixed grid (`gridWidth = 80`, `gridHeight = 45`) held in
global arrays; here the grid dimensions, the obstacle bitmap, the SDF/clearance field
and the neighbor offset table are parameters, and the algorithms are translated
statement by statement.  Machine integers are modelled as unbounded `Int` (the values
arising in the program stay far from the `int` range, and the source assumes no
overflow); the C division operator on `int`, which truncates toward zero, is modelled
by `Int.tdiv`.  The search main loop, a `while` loop whose termination is itself under
study, is modelled with explicit fuel (`runSearch`), and a completed run is one whose
open queue is empty.
-/

/-- C-style integer division on `int`: truncation toward zero (C99 6.5.5). -/
def cdiv (a b : Int) : Int := Int.tdiv a b

/-- Fuel-indexed search for the least `k` with `n ≤ k * k`, counting up from `k`;
the structural recursion on the fuel keeps every value kernel-computable. -/
def isqrtAux (n : Nat) : Nat → Nat → Nat
  | 0, k => k
  | fuel + 1, k => if n ≤ k * k then k else isqrtAux n fuel (k + 1)

/-- The square-root lookup table of the source (`isqrt[i] = (int)ceilf(sqrtf(i))`,
main lines 313-316): the ceiling of the real square root, computed as the least
`k` with `n ≤ k * k`.  For the table range `i < 256` the float computation is
exact. -/
def isqrt (n : Nat) : Nat := isqrtAux n (n + 1) 0

/-- Distance metric used by the SDF rebuild (main lines 500-514):
selector 0 = euclidean (ceil square root of `dx² + dy²`, via the lookup table),
1 = chebyshev, 2 = manhattan; any other selector leaves `d = 0` as in the source. -/
def metricD (sdfFunction : Nat) (dx dy : Int) : Int :=
  if sdfFunction = 0 then (isqrt (dx * dx + dy * dy).toNat : Int)
  else if sdfFunction = 1 then
    if dx.natAbs < dy.natAbs then (dy.natAbs : Int) else (dx.natAbs : Int)
  else if sdfFunction = 2 then (dx.natAbs : Int) + (dy.natAbs : Int)
  else 0

/-- The list `[a, a+1, ..., b]` (empty when `b < a`): models `for (i = a; i <= b; i++)`. -/
def intRange (a b : Int) : List Int :=
  (List.range (b + 1 - a).toNat).map (fun i : Nat => a + (i : Int))

/-- The per-cell search record of the source (`struct PathfindingNode`). -/
structure PathfindingNode where
  x : Int
  y : Int
  fromX : Int
  fromY : Int
  score : Int
deriving DecidableEq, Repr

/-- The zero-filled node; used as the `getD` default for queue reads. -/
def noNode : PathfindingNode := ⟨0, 0, 0, 0, 0⟩

/-- A jump offset with its precomputed distance (`struct NeighborOffset`). -/
structure NeighborOffset where
  x : Int
  y : Int
  distance : Int
deriving DecidableEq, Repr

/-- The neighbor offset table built at startup (main lines 318-329): every offset
`(x, y)` with `x, y ∈ [-10, 10]` whose ceil-euclidean distance `d` satisfies
`0 < d ≤ 10`, appended in the order of the double loop (x outer, y inner). -/
def neighborOffsets : List NeighborOffset :=
  (intRange (-10) 10).foldl (fun acc x =>
    (intRange (-10) 10).foldl (fun acc2 y =>
      let d : Int := (isqrt (x * x + y * y).toNat : Int)
      if d ≤ 10 ∧ 0 < d then acc2 ++ [⟨x, y, d⟩] else acc2) acc) []

/-- Pointwise write `f[i] = v` on an array modelled as a function. -/
def updF (f : Int → Int) (i v : Int) : Int → Int := fun j => if j = i then v else f j

/-- The per-obstacle splat of the SDF rebuild (main lines 483-521): the cell of the
blocked position `(x, y)` is set to 0, then every cell of the surrounding window
`[x-10, x+10] × [y-10, y+10]`, clamped to the grid, is lowered to the metric
distance `d` when `d < current` and `d < 10`. -/
def splatCell (W H : Int) (sdfFunction : Nat) (x y : Int) (sdf : Int → Int) : Int → Int :=
  let sdf0 := updF sdf (y * W + x) 0
  let minX := if x - 10 < 0 then 0 else x - 10
  let minY := if y - 10 < 0 then 0 else y - 10
  let maxX := if W ≤ x + 10 then W - 1 else x + 10
  let maxY := if H ≤ y + 10 then H - 1 else y + 10
  (intRange minY maxY).foldl (fun sdf j =>
    (intRange minX maxX).foldl (fun sdf i =>
      let d := metricD sdfFunction (x - i) (y - j)
      if d < sdf (j * W + i) ∧ d < 10 then updF sdf (j * W + i) d else sdf) sdf) sdf0

/-- The clearance/SDF field rebuild (main lines 466-524): every cell starts at the
cap 10, then every blocked cell of the row-major scan splats its distances. -/
def buildSdfCells (W H : Int) (blocked : Int → Bool) (sdfFunction : Nat) : Int → Int :=
  (intRange 0 (H - 1)).foldl (fun sdf y =>
    (intRange 0 (W - 1)).foldl (fun sdf x =>
      if blocked (y * W + x) then splatCell W H sdfFunction x y sdf
      else sdf) sdf) (fun _ => 10)

/-- All grid cells `(x, y)` in the row-major order of the rebuild scan. -/
def cellPairs (W H : Int) : List (Int × Int) :=
  (intRange 0 (H - 1)).flatMap (fun y => (intRange 0 (W - 1)).map (fun x => (x, y)))

/-- The saturating minimum-distance field stated by the specification: the minimum,
over all blocked in-bounds cells, of the metric distance, capped at the radius 10
(cells at distance 10 or more from every obstacle report exactly 10). -/
def specClearance (W H : Int) (blocked : Int → Bool) (sdfFunction : Nat)
    (cx cy : Int) : Int :=
  ((cellPairs W H).filter (fun b => blocked (b.2 * W + b.1))).foldl
    (fun v b => min v (metricD sdfFunction (b.1 - cx) (b.2 - cy))) 10

/-- Everything `FindPath` reads besides its explicit arguments: the grid dimensions
and the global `sdfCells` and `neighborOffsets` tables. -/
structure SearchEnv where
  W : Int
  H : Int
  sdfCells : Int → Int
  offsets : List NeighborOffset
  unitSize : Int
  sdfFactor : Int
  enableJumping : Bool

/-- State of the search main loop.  `popped` instruments the dequeue events with the
score of each node popped (a history variable; the algorithm never reads it). -/
structure SearchState where
  map : Int → PathfindingNode
  queue : List PathfindingNode
  overflow : Bool
  popped : List Int

/-- Pointwise write on the node map. -/
def updN (m : Int → PathfindingNode) (i : Int) (v : PathfindingNode) :
    Int → PathfindingNode := fun j => if j = i then v else m j

/-- Body of the neighbor loop of `FindPath` (lines 149-209): skip the offset when the
step distance exceeds the jump bound or jumping is disabled for multi-cell steps, when
the target is off the grid, or when the target clearance is below the unit size;
otherwise compute the candidate score and, on first visit or strict improvement,
overwrite the target node and push it, clamping the queue on overflow (lines 200-207). -/
def relaxNeighbor (env : SearchEnv) (node : PathfindingNode) (cellSdf maxDistance : Int)
    (s : SearchState) (o : NeighborOffset) : SearchState :=
  let stepDistance := o.distance
  if maxDistance < stepDistance ∨ (¬env.enableJumping ∧ 1 < stepDistance) then s
  else
    let x := node.x + o.x
    let y := node.y + o.y
    if x < 0 ∨ env.W ≤ x ∨ y < 0 ∨ env.H ≤ y then s
    else
      let nextSdf := env.sdfCells (y * env.W + x)
      if nextSdf < env.unitSize then s
      else
        let sdfValue := env.sdfCells (y * env.W + x)
        let integratedSdfValue := cdiv ((sdfValue + cellSdf) * (stepDistance + 1)) 2
        let score := node.score + stepDistance + cdiv (integratedSdfValue * env.sdfFactor) 6
        if (s.map (y * env.W + x)).score = 0 ∨ score < (s.map (y * env.W + x)).score then
          let newNode : PathfindingNode :=
            { x := x, y := y, fromX := node.x, fromY := node.y, score := score }
          let queue2 := s.queue ++ [newNode]
          if (env.W * env.H).toNat ≤ queue2.length then
            { map := updN s.map (y * env.W + x) newNode,
              queue := queue2.take ((env.W * env.H).toNat - 1),
              overflow := true, popped := s.popped }
          else
            { map := updN s.map (y * env.W + x) newNode, queue := queue2,
              overflow := s.overflow, popped := s.popped }
        else s

/-- The linear scan for the entry with the lowest score (lines 122-129); ties keep the
earliest index, as the comparison is strict. -/
def lowestScoreIndex (q : List PathfindingNode) : Nat :=
  (List.range q.length).foldl (fun best i =>
    if (q.getD i noNode).score < (q.getD best noNode).score then i else best) 0

/-- One iteration of the search main loop (lines 119-210): dequeue the lowest-score
node (shifting the rest left, which preserves their order), compute the jump bound
`maxDistance = max(1, cellSdf - unitSize)`, and run the neighbor loop. -/
def searchStep (env : SearchEnv) (s : SearchState) : SearchState :=
  if s.queue = [] then s
  else
    let i := lowestScoreIndex s.queue
    let node := s.queue.getD i noNode
    let s1 : SearchState :=
      { map := s.map, queue := s.queue.eraseIdx i, overflow := s.overflow,
        popped := s.popped ++ [node.score] }
    let cellSdf := env.sdfCells (node.y * env.W + node.x)
    let maxDistance := if cellSdf - env.unitSize < 1 then 1 else cellSdf - env.unitSize
    env.offsets.foldl (relaxNeighbor env node cellSdf maxDistance) s1

/-- The search main loop with explicit fuel: iterate `searchStep` while the queue is
nonempty.  The C loop has no fuel; a run that still has a nonempty queue after `fuel`
iterations is an uncompleted run. -/
def runSearch (env : SearchEnv) : Nat → SearchState → SearchState
  | 0, s => s
  | n + 1, s => if s.queue = [] then s else runSearch env n (searchStep env s)

/-- The initial search state (lines 100-117): all map scores cleared (other fields
keep their prior values, which the algorithm never reads while the score is 0), the
start cell seeded with score 1 and predecessor sentinel `(-1, -1)`, and the queue
holding one entry for the start cell whose `from` fields are the start itself. -/
def startState (env : SearchEnv) (startX startY : Int)
    (prior : Int → PathfindingNode) : SearchState :=
  { map := fun i =>
      if i = startY * env.W + startX then
        { x := startX, y := startY, fromX := -1, fromY := -1, score := 1 }
      else { prior i with score := 0 },
    queue := [{ x := startX, y := startY, fromX := startX, fromY := startY, score := 1 }],
    overflow := false, popped := [] }

/-- The backwards walk of the reconstruction (lines 215-226): follow `from` links from
the goal, collecting the map records, while the current cell has positive score, is
not the start, and fewer than `gridWidth * gridHeight` records were collected (the
fuel argument). -/
def walkBack (env : SearchEnv) (m : Int → PathfindingNode) (startX startY : Int) :
    Nat → Int → Int → List PathfindingNode
  | 0, _, _ => []
  | fuel + 1, x, y =>
    if 0 < (m (y * env.W + x)).score ∧ (x ≠ startX ∨ y ≠ startY) then
      m (y * env.W + x) ::
        walkBack env m startX startY fuel (m (y * env.W + x)).fromX (m (y * env.W + x)).fromY
    else []

/-- Path reconstruction (lines 212-235): when the goal score is positive, the walk
from the goal followed by the start record, in exactly that order (the source does
not reverse the list; its comment defers the swap to the caller); otherwise the
empty path, reported through a zero `pathLength`. -/
def reconstructPath (env : SearchEnv) (m : Int → PathfindingNode)
    (toX toY startX startY : Int) : List PathfindingNode :=
  if 0 < (m (toY * env.W + toX)).score then
    walkBack env m startX startY (env.W * env.H).toNat toX toY ++
      [m (startY * env.W + startX)]
  else []

/-- The whole of `FindPath` (lines 97-238): run the main loop from the seeded state,
and on completion reconstruct the path from the final map.  The result is `none`
when `fuel` iterations do not empty the queue (the C loop would still be running);
`(path).length` is the `*pathLength` output, and the final map is the score map the
caller reads. -/
def FindPath (env : SearchEnv) (toX toY startX startY : Int)
    (prior : Int → PathfindingNode) (fuel : Nat) :
    Option (SearchState × List PathfindingNode) :=
  let s := runSearch env fuel (startState env startX startY prior)
  if s.queue = [] then some (s, reconstructPath env s.map toX toY startX startY)
  else none

/-! ### Proof infrastructure definitions -/

/-- The window cells `(i, j)` visited by one splat, row by row. -/
def windowPairs (minX maxX minY maxY : Int) : List (Int × Int) :=
  (intRange minY maxY).flatMap (fun j => (intRange minX maxX).map (fun i => (i, j)))

/-- One window-cell update of a splat, as a function of the pair `(i, j)`. -/
def sdfStep (W : Int) (sdfFunction : Nat) (x y : Int) (sdf : Int → Int)
    (p : Int × Int) : Int → Int :=
  let d := metricD sdfFunction (x - p.1) (y - p.2)
  if d < sdf (p.2 * W + p.1) ∧ d < 10 then updF sdf (p.2 * W + p.1) d else sdf

/-- One blocked-cell check of the rebuild scan, as a function of the pair `(x, y)`. -/
def buildStep (W H : Int) (blocked : Int → Bool) (sdfFunction : Nat)
    (sdf : Int → Int) (p : Int × Int) : Int → Int :=
  if blocked (p.2 * W + p.1) then splatCell W H sdfFunction p.1 p.2 sdf else sdf

/-- All values of an SDF field lie in `[0, 10]`. -/
def sdfInRange (g : Int → Int) : Prop := ∀ i, 0 ≤ g i ∧ g i ≤ 10

/-- Row-major index of the cell `(x, y)`, the `y * gridWidth + x` of the source. -/
def idxOf (env : SearchEnv) (x y : Int) : Int := y * env.W + x

/-- The coordinates lie on the grid (negation of the rejection test of line 162). -/
def inBounds (env : SearchEnv) (x y : Int) : Prop :=
  0 ≤ x ∧ x < env.W ∧ 0 ≤ y ∧ y < env.H

/-- The jump bound `max(1, cellSdf - unitSize)` computed at a cell (lines 141-146). -/
def maxDistAt (env : SearchEnv) (x y : Int) : Int :=
  if env.sdfCells (idxOf env x y) - env.unitSize < 1 then 1
  else env.sdfCells (idxOf env x y) - env.unitSize

/-- The offset `o` is an admissible move from `(fx, fy)`: it survives every skip of the
neighbor loop (jump bound, jump switch, grid bounds, landing clearance). -/
def allowedMove (env : SearchEnv) (o : NeighborOffset) (fx fy : Int) : Prop :=
  o.distance ≤ maxDistAt env fx fy ∧ (env.enableJumping ∨ o.distance ≤ 1) ∧
  inBounds env (fx + o.x) (fy + o.y) ∧
  env.unitSize ≤ env.sdfCells (idxOf env (fx + o.x) (fy + o.y))

/-- The cost added to the popped score when moving by `o` from `(fx, fy)`
(lines 176-183): the step distance plus the integrated-clearance bias. -/
def moveCost (env : SearchEnv) (o : NeighborOffset) (fx fy : Int) : Int :=
  o.distance + cdiv (cdiv ((env.sdfCells (idxOf env (fx + o.x) (fy + o.y)) +
    env.sdfCells (idxOf env fx fy)) * (o.distance + 1)) 2 * env.sdfFactor) 6

/-- Cells reachable from the start by chains of admissible moves. -/
inductive Reach (env : SearchEnv) (sx sy : Int) : Int → Int → Prop
  | refl : Reach env sx sy sx sy
  | tail {fx fy : Int} (o : NeighborOffset) (ho : o ∈ env.offsets)
      (hm : allowedMove env o fx fy) (h : Reach env sx sy fx fy) :
      Reach env sx sy (fx + o.x) (fy + o.y)

/-- Environment facts used by the search proofs, all satisfied by the program
configuration: positive grid dimensions, a nonnegative SDF field (the rebuild only
stores values in `[0, 10]`), an offset table whose entries have positive distance and
a nonzero displacement, and a nonnegative wall factor (the program passes
`ratWallFactor ∈ [0, 7]` and `0`). -/
structure EnvOK (env : SearchEnv) : Prop where
  hW : 0 < env.W
  hH : 0 < env.H
  sdfNN : ∀ i, 0 ≤ env.sdfCells i
  offsetsPos : ∀ o ∈ env.offsets, 1 ≤ o.distance
  offsetsNZ : ∀ o ∈ env.offsets, ¬(o.x = 0 ∧ o.y = 0)
  offsetsDist : ∀ o ∈ env.offsets, o.distance = (isqrt ((o.x * o.x + o.y * o.y).toNat) : Int)
  offsetsUnit : ∀ o ∈ env.offsets, o.distance = 1 → o.x.natAbs + o.y.natAbs = 1
  factorNN : 0 ≤ env.sdfFactor

/-- Pending-repair marker used while the neighbor loop of one pop is in flight:
the edge from the popped node through an offset still in `rem` may not yet satisfy
the relaxation bookkeeping; `fscore` is the map score of the popped cell at pop
time (so a stale pop, with `node.score ≠ fscore`, never creates pending edges). -/
def pendFor (node : PathfindingNode) (fscore : Int) (rem : List NeighborOffset) :
    Int → Int → NeighborOffset → Prop :=
  fun fx fy o => fx = node.x ∧ fy = node.y ∧ node.score = fscore ∧ o ∈ rem

/-- No pending edges: the invariant as it holds between main-loop iterations. -/
def noPend : Int → Int → NeighborOffset → Prop := fun _ _ _ => False

/-- The record stored at a visited non-start cell describes a real admissible move
from its predecessor, the predecessor is visited, the stored score dominates the
relaxed value and, while no overflow was reported, the stored score is exactly the
relaxed value unless a fresh queue entry for the predecessor (or a pending repair)
exists. -/
def PredOKg (env : SearchEnv) (pend : Int → Int → NeighborOffset → Prop)
    (s : SearchState) (x y : Int) : Prop :=
  ∃ o ∈ env.offsets,
    (s.map (idxOf env x y)).fromX + o.x = x ∧ (s.map (idxOf env x y)).fromY + o.y = y ∧
    allowedMove env o (s.map (idxOf env x y)).fromX (s.map (idxOf env x y)).fromY ∧
    inBounds env (s.map (idxOf env x y)).fromX (s.map (idxOf env x y)).fromY ∧
    1 ≤ (s.map (idxOf env (s.map (idxOf env x y)).fromX (s.map (idxOf env x y)).fromY)).score ∧
    (s.map (idxOf env (s.map (idxOf env x y)).fromX (s.map (idxOf env x y)).fromY)).score +
      moveCost env o (s.map (idxOf env x y)).fromX (s.map (idxOf env x y)).fromY ≤
      (s.map (idxOf env x y)).score ∧
    (s.overflow = false →
      (s.map (idxOf env x y)).score =
        (s.map (idxOf env (s.map (idxOf env x y)).fromX (s.map (idxOf env x y)).fromY)).score +
          moveCost env o (s.map (idxOf env x y)).fromX (s.map (idxOf env x y)).fromY ∨
      (∃ e ∈ s.queue, e.x = (s.map (idxOf env x y)).fromX ∧
        e.y = (s.map (idxOf env x y)).fromY ∧
        e.score = (s.map (idxOf env (s.map (idxOf env x y)).fromX
          (s.map (idxOf env x y)).fromY)).score) ∨
      pend (s.map (idxOf env x y)).fromX (s.map (idxOf env x y)).fromY o)

/-- The admissible edge from `(fx, fy)` through `o` is accounted for: its target is
visited with a score no worse than the relaxed value, or a fresh queue entry for
`(fx, fy)` (or a pending repair) exists. -/
def EdgeClosedg (env : SearchEnv) (pend : Int → Int → NeighborOffset → Prop)
    (s : SearchState) (fx fy : Int) (o : NeighborOffset) : Prop :=
  (1 ≤ (s.map (idxOf env (fx + o.x) (fy + o.y))).score ∧
    (s.map (idxOf env (fx + o.x) (fy + o.y))).score ≤
      (s.map (idxOf env fx fy)).score + moveCost env o fx fy) ∨
  (∃ e ∈ s.queue, e.x = fx ∧ e.y = fy ∧ e.score = (s.map (idxOf env fx fy)).score) ∨
  pend fx fy o

/-- The search loop invariant, parametrized by the pending-repair marker (taken as
`noPend` between iterations). -/
structure SearchInv (env : SearchEnv) (sx sy : Int)
    (pend : Int → Int → NeighborOffset → Prop) (s : SearchState) : Prop where
  qLen : s.queue.length ≤ (env.W * env.H).toNat
  qMem : ∀ e ∈ s.queue, inBounds env e.x e.y ∧ 1 ≤ e.score ∧
    1 ≤ (s.map (idxOf env e.x e.y)).score ∧ (s.map (idxOf env e.x e.y)).score ≤ e.score
  seed : s.map (idxOf env sx sy) = ⟨sx, sy, -1, -1, 1⟩
  zeroOne : ∀ x y, inBounds env x y →
    (s.map (idxOf env x y)).score = 0 ∨ 1 ≤ (s.map (idxOf env x y)).score
  coords : ∀ x y, inBounds env x y → 1 ≤ (s.map (idxOf env x y)).score →
    (s.map (idxOf env x y)).x = x ∧ (s.map (idxOf env x y)).y = y
  reach : ∀ x y, inBounds env x y → 1 ≤ (s.map (idxOf env x y)).score →
    Reach env sx sy x y
  sdfAbove : ∀ x y, inBounds env x y → 1 ≤ (s.map (idxOf env x y)).score →
    ¬(x = sx ∧ y = sy) → env.unitSize ≤ env.sdfCells (idxOf env x y)
  pred : ∀ x y, inBounds env x y → 1 ≤ (s.map (idxOf env x y)).score →
    ¬(x = sx ∧ y = sy) → PredOKg env pend s x y
  closure : s.overflow = false → ∀ fx fy, inBounds env fx fy →
    1 ≤ (s.map (idxOf env fx fy)).score → ∀ o ∈ env.offsets, allowedMove env o fx fy →
    EdgeClosedg env pend s fx fy o
  sorted : s.popped.Chain' (· ≤ ·) ∧
    ∀ l, s.popped.getLast? = some l → ∀ e ∈ s.queue, l ≤ e.score

/-- Side facts about the popped node that stay fixed while its neighbor loop runs. -/
structure StepCtx (env : SearchEnv) (node : PathfindingNode) (fscore : Int)
    (s : SearchState) : Prop where
  nodeB : inBounds env node.x node.y
  node1 : 1 ≤ node.score
  fEq : (s.map (idxOf env node.x node.y)).score = fscore
  fLe : fscore ≤ node.score
  f1 : 1 ≤ fscore
  lastP : s.popped.getLast? = some node.score

/-- The push performed by a successful relaxation, with the overflow clamp of
lines 200-207 (the clamp drops the entry just pushed and reports the overflow). -/
def relaxPush (env : SearchEnv) (s : SearchState) (tIdx : Int)
    (nn : PathfindingNode) : SearchState :=
  if (env.W * env.H).toNat ≤ s.queue.length + 1 then
    { map := updN s.map tIdx nn, queue := (s.queue ++ [nn]).take ((env.W * env.H).toNat - 1),
      overflow := true, popped := s.popped }
  else
    { map := updN s.map tIdx nn, queue := s.queue ++ [nn], overflow := s.overflow,
      popped := s.popped }

/-- Shape of a terminating backwards walk: the collected records follow the `from`
links and the walk ends exactly when the start cell is reached. -/
inductive WalkChain (env : SearchEnv) (m : Int → PathfindingNode) (sx sy : Int) :
    List PathfindingNode → Int → Int → Prop
  | stop (x y : Int) (hx : x = sx) (hy : y = sy) : WalkChain env m sx sy [] x y
  | step (x y : Int) (l : List PathfindingNode) (hns : ¬(x = sx ∧ y = sy))
      (h : WalkChain env m sx sy l (m (idxOf env x y)).fromX (m (idxOf env x y)).fromY) :
      WalkChain env m sx sy (m (idxOf env x y) :: l) x y

/-- Number of in-bounds cells visited with score at most `v`; the measure showing the
backwards walk terminates within the cell count. -/
def countLower (env : SearchEnv) (m : Int → PathfindingNode) (v : Int) : Nat :=
  ((cellPairs env.W env.H).filter (fun p =>
    decide (1 ≤ (m (idxOf env p.1 p.2)).score ∧ (m (idxOf env p.1 p.2)).score ≤ v))).length

/-- The edge cost recomputed from two consecutive path records, as the specification
asks: the ceil-euclidean step distance plus the integrated-clearance bias, in the
same integer arithmetic as the search. -/
def recompCost (env : SearchEnv) (a b : PathfindingNode) : Int :=
  let d : Int := (isqrt (((a.x - b.x) * (a.x - b.x) + (a.y - b.y) * (a.y - b.y)).toNat) : Int)
  d + cdiv (cdiv ((env.sdfCells (idxOf env a.x a.y) + env.sdfCells (idxOf env b.x b.y)) *
    (d + 1)) 2 * env.sdfFactor) 6

/-- Sum of the recomputed edge costs over consecutive pairs of a path. -/
def pathCostSum (env : SearchEnv) : List PathfindingNode → Int
  | [] => 0
  | [_] => 0
  | a :: b :: t => recompCost env a b + pathCostSum env (b :: t)

/-- All in-bounds cells carry a score that is zero or at least one; the part of the
search invariant the termination measure relies on. -/
def zeroOneMap (env : SearchEnv) (m : Int → PathfindingNode) : Prop :=
  ∀ x y, inBounds env x y → (m (idxOf env x y)).score = 0 ∨ 1 ≤ (m (idxOf env x y)).score

/-- Number of in-bounds cells still unvisited (score `0`); the first component of the
termination measure of the main loop. -/
def countZero (env : SearchEnv) (m : Int → PathfindingNode) : Nat :=
  ((cellPairs env.W env.H).filter (fun p =>
    decide ((m (idxOf env p.1 p.2)).score = 0))).length

/-- Total of the stored scores over the grid, clamped at zero; the second component
of the termination measure of the main loop. -/
def scoreSum (env : SearchEnv) (m : Int → PathfindingNode) : Nat :=
  ((cellPairs env.W env.H).map (fun p => (m (idxOf env p.1 p.2)).score.toNat)).sum

/-- Strict lexicographic decrease of the two map components of the measure. -/
def measureLt (env : SearchEnv) (m m2 : Int → PathfindingNode) : Prop :=
  countZero env m < countZero env m2 ∨
  (countZero env m = countZero env m2 ∧ scoreSum env m < scoreSum env m2)

/-- The obstacle mask of the two-by-one test grid whose left cell is blocked. -/
def blockedLeft : Int → Bool := fun i => decide (i = 0)

/-- The clearance field the rebuild produces on the two-by-one grid with its left
cell blocked (euclidean metric): `0` on the obstacle, `1` beside it; the theorem
`sdfBlocked2_eq_build` checks it against `buildSdfCells`. -/
def sdfBlocked2 : Int → Int := fun i => if i = 0 then 0 else 1

/-- The clearance field of an obstacle-free grid: the cap `10` everywhere; the
theorem `sdfOpen_eq_build` checks it against `buildSdfCells`. -/
def sdfOpen : Int → Int := fun _ => 10

/-- A two-by-one grid whose left cell is blocked, with the full program offset
table, unit size `1`, wall factor `0` and jumping disabled. -/
def envBlocked2 : SearchEnv :=
  { W := 2, H := 1, sdfCells := sdfBlocked2, offsets := neighborOffsets,
    unitSize := 1, sdfFactor := 0, enableJumping := false }

/-- An obstacle-free two-by-one grid with the full program offset table, unit
size `1`, wall factor `0` and jumping disabled. -/
def envOpen2 : SearchEnv :=
  { W := 2, H := 1, sdfCells := sdfOpen, offsets := neighborOffsets,
    unitSize := 1, sdfFactor := 0, enableJumping := false }

/-- The obstacle-free two-by-one grid with a negative wall factor, the
configuration under which the main loop keeps lowering scores forever. -/
def envNeg2 : SearchEnv :=
  { W := 2, H := 1, sdfCells := sdfOpen, offsets := neighborOffsets,
    unitSize := 1, sdfFactor := -1, enableJumping := false }

/-- The four distance-1 entries of the offset table, in table order: the moves a
search with jumping disabled can ever take. -/
def unitOffsets : List NeighborOffset :=
  [⟨-1, 0, 1⟩, ⟨0, -1, 1⟩, ⟨0, 1, 1⟩, ⟨1, 0, 1⟩]

/-- An obstacle-free two-by-one grid over the distance-1 offsets only; used to
instantiate the universally quantified theorems at a small concrete input. -/
def envUnit : SearchEnv :=
  { W := 2, H := 1, sdfCells := sdfOpen, offsets := unitOffsets,
    unitSize := 1, sdfFactor := 0, enableJumping := false }

/-! ### Basic lemmas: ranges, the ceil square root, the metric -/

theorem mem_intRange {a b k : Int} : k ∈ intRange a b ↔ a ≤ k ∧ k ≤ b := by
  unfold intRange
  simp only [List.mem_map, List.mem_range]
  constructor
  · rintro ⟨i, hi, rfl⟩
    omega
  · intro h
    exact ⟨(k - a).toNat, by omega, by omega⟩

theorem isqrtAux_spec (n : Nat) : ∀ (fuel k : Nat), (∀ j, j < k → j * j < n) →
    n + 1 ≤ k + fuel →
    n ≤ isqrtAux n fuel k * isqrtAux n fuel k ∧
      ∀ j, j < isqrtAux n fuel k → j * j < n := by
  intro fuel
  induction fuel with
  | zero =>
    intro k hj hk
    refine ⟨?_, hj⟩
    show n ≤ k * k
    nlinarith
  | succ f ih =>
    intro k hj hk
    have hstep : isqrtAux n (f + 1) k = if n ≤ k * k then k else isqrtAux n f (k + 1) := rfl
    by_cases h : n ≤ k * k
    · rw [hstep, if_pos h]
      exact ⟨h, hj⟩
    · rw [hstep, if_neg h]
      refine ih (k + 1) ?_ (by omega)
      intro j hjk
      by_cases hje : j = k
      · subst hje
        omega
      · exact hj j (by omega)

theorem isqrt_spec (n : Nat) :
    n ≤ isqrt n * isqrt n ∧ ∀ j, j < isqrt n → j * j < n :=
  isqrtAux_spec n (n + 1) 0 (fun j hj => absurd hj (Nat.not_lt_zero j)) (by omega)

theorem isqrt_sq (k : Nat) : isqrt (k * k) = k := by
  have h1 := (isqrt_spec (k * k)).1
  have h2 : isqrt (k * k) ≤ k := by
    by_contra hlt
    push_neg at hlt
    have h3 := (isqrt_spec (k * k)).2 k hlt
    omega
  have h4 : k ≤ isqrt (k * k) := by
    by_contra hlt
    push_neg at hlt
    have h5 : isqrt (k * k) * isqrt (k * k) < k * k := by nlinarith
    omega
  omega

theorem isqrt_mono {m n : Nat} (h : m ≤ n) : isqrt m ≤ isqrt n := by
  by_contra hlt
  push_neg at hlt
  have h1 := (isqrt_spec m).2 (isqrt n) hlt
  have h2 := (isqrt_spec n).1
  omega

theorem le_isqrt_of_sq_le {k n : Nat} (h : k * k ≤ n) : k ≤ isqrt n := by
  calc k = isqrt (k * k) := (isqrt_sq k).symm
    _ ≤ isqrt n := isqrt_mono h

theorem metricD_nonneg (f : Nat) (dx dy : Int) : 0 ≤ metricD f dx dy := by
  unfold metricD
  split
  · positivity
  · split
    · split <;> positivity
    · split
      · positivity
      · omega

theorem metricD_zero {f : Nat} (hf : f < 3) : metricD f 0 0 = 0 := by
  interval_cases f <;> decide

theorem sq_le_toNat_add (dx dy : Int) :
    dx.natAbs * dx.natAbs ≤ (dx * dx + dy * dy).toNat := by
  have h0 : (0:Int) ≤ dx * dx + dy * dy :=
    add_nonneg (mul_self_nonneg dx) (mul_self_nonneg dy)
  have h1 : ((dx.natAbs * dx.natAbs : Nat) : Int) ≤ ((dx * dx + dy * dy).toNat : Int) := by
    rw [Int.natAbs_mul_self, Int.toNat_of_nonneg h0]
    nlinarith [mul_self_nonneg dy]
  exact_mod_cast h1

theorem metricD_ge_absX {f : Nat} (hf : f < 3) (dx dy : Int) :
    (dx.natAbs : Int) ≤ metricD f dx dy := by
  unfold metricD
  interval_cases f
  · rw [if_pos rfl]
    exact_mod_cast le_isqrt_of_sq_le (sq_le_toNat_add dx dy)
  · rw [if_neg one_ne_zero, if_pos rfl]
    split <;> omega
  · rw [if_neg (by norm_num : (2:Nat) ≠ 0), if_neg (by norm_num : (2:Nat) ≠ 1), if_pos rfl]
    omega

theorem metricD_ge_absY {f : Nat} (hf : f < 3) (dx dy : Int) :
    (dy.natAbs : Int) ≤ metricD f dx dy := by
  unfold metricD
  interval_cases f
  · rw [if_pos rfl]
    have h2 : dy.natAbs * dy.natAbs ≤ (dx * dx + dy * dy).toNat := by
      have h := sq_le_toNat_add dy dx
      have he : dy * dy + dx * dx = dx * dx + dy * dy := by ring
      rwa [he] at h
    exact_mod_cast le_isqrt_of_sq_le h2
  · rw [if_neg one_ne_zero, if_pos rfl]
    split <;> omega
  · rw [if_neg (by norm_num : (2:Nat) ≠ 0), if_neg (by norm_num : (2:Nat) ≠ 1), if_pos rfl]
    omega

/-! ### The clearance field rebuild computes the saturating minimum distance -/

theorem foldl_flatMap {α β γ : Type} (l : List α) (f : α → List β) (g : γ → β → γ)
    (s : γ) : (l.flatMap f).foldl g s = l.foldl (fun s a => (f a).foldl g s) s := by
  induction l generalizing s with
  | nil => rfl
  | cons a t ih => simp [List.flatMap_cons, List.foldl_append, ih]

theorem mem_cellPairs {W H : Int} {p : Int × Int} :
    p ∈ cellPairs W H ↔ 0 ≤ p.1 ∧ p.1 ≤ W - 1 ∧ 0 ≤ p.2 ∧ p.2 ≤ H - 1 := by
  unfold cellPairs
  simp only [List.mem_flatMap, List.mem_map]
  constructor
  · rintro ⟨y, hy, x, hx, rfl⟩
    rw [mem_intRange] at hy hx
    exact ⟨hx.1, hx.2, hy.1, hy.2⟩
  · rintro ⟨h1, h2, h3, h4⟩
    exact ⟨p.2, mem_intRange.mpr ⟨h3, h4⟩, p.1, mem_intRange.mpr ⟨h1, h2⟩, rfl⟩

theorem mem_windowPairs {a b c d : Int} {p : Int × Int} :
    p ∈ windowPairs a b c d ↔ a ≤ p.1 ∧ p.1 ≤ b ∧ c ≤ p.2 ∧ p.2 ≤ d := by
  unfold windowPairs
  simp only [List.mem_flatMap, List.mem_map]
  constructor
  · rintro ⟨y, hy, x, hx, rfl⟩
    rw [mem_intRange] at hy hx
    exact ⟨hx.1, hx.2, hy.1, hy.2⟩
  · rintro ⟨h1, h2, h3, h4⟩
    exact ⟨p.2, mem_intRange.mpr ⟨h3, h4⟩, p.1, mem_intRange.mpr ⟨h1, h2⟩, rfl⟩

theorem rowMajor_inj {W i cx j cy : Int} (hi : 0 ≤ i) (hiW : i < W) (hcx : 0 ≤ cx)
    (hcxW : cx < W) (h : j * W + i = cy * W + cx) : i = cx ∧ j = cy := by
  have hW : 0 < W := by omega
  rcases lt_trichotomy j cy with h1 | h1 | h1
  · exfalso
    have h2 : j + 1 ≤ cy := by omega
    have h3 : (j + 1) * W ≤ cy * W := mul_le_mul_of_nonneg_right (by omega) (by omega)
    nlinarith
  · subst h1
    constructor
    · omega
    · rfl
  · exfalso
    have h2 : cy + 1 ≤ j := by omega
    have h3 : (cy + 1) * W ≤ j * W := mul_le_mul_of_nonneg_right (by omega) (by omega)
    nlinarith

theorem splat_as_pairs (W H : Int) (f : Nat) (x y : Int) (sdf : Int → Int) :
    splatCell W H f x y sdf =
      (windowPairs (if x - 10 < 0 then 0 else x - 10) (if W ≤ x + 10 then W - 1 else x + 10)
          (if y - 10 < 0 then 0 else y - 10) (if H ≤ y + 10 then H - 1 else y + 10)).foldl
        (sdfStep W f x y) (updF sdf (y * W + x) 0) := by
  unfold splatCell windowPairs
  rw [foldl_flatMap]
  simp only [List.foldl_map]
  rfl

theorem build_as_pairs (W H : Int) (blocked : Int → Bool) (f : Nat) :
    buildSdfCells W H blocked f =
      (cellPairs W H).foldl (buildStep W H blocked f) (fun _ => 10) := by
  unfold buildSdfCells cellPairs
  rw [foldl_flatMap]
  simp only [List.foldl_map]
  rfl

theorem sdfStep_inRange {W : Int} {f : Nat} {x y : Int} {sdf : Int → Int}
    (h : sdfInRange sdf) (p : Int × Int) : sdfInRange (sdfStep W f x y sdf p) := by
  unfold sdfStep
  dsimp only
  split
  · intro i
    unfold updF
    split
    · exact ⟨metricD_nonneg f _ _, by rename_i hd _; omega⟩
    · exact h i
  · exact h

theorem foldl_sdfStep_inRange {W : Int} {f : Nat} {x y : Int} (ps : List (Int × Int))
    (sdf : Int → Int) (h : sdfInRange sdf) :
    sdfInRange (ps.foldl (sdfStep W f x y) sdf) := by
  induction ps generalizing sdf with
  | nil => exact h
  | cons p rest ih => exact ih _ (sdfStep_inRange h p)

theorem splat_inRange {W H : Int} {f : Nat} {x y : Int} {sdf : Int → Int}
    (h : sdfInRange sdf) : sdfInRange (splatCell W H f x y sdf) := by
  rw [splat_as_pairs]
  refine foldl_sdfStep_inRange _ _ ?_
  intro i
  unfold updF
  split
  · omega
  · exact h i

theorem sdfStep_at_other {W : Int} {f : Nat} {x y : Int} {sdf : Int → Int}
    {p : Int × Int} {t : Int} (hne : p.2 * W + p.1 ≠ t) :
    sdfStep W f x y sdf p t = sdf t := by
  unfold sdfStep
  split
  · unfold updF
    simp only [ite_eq_right_iff]
    exact fun h => absurd h.symm hne
  · rfl

theorem sdfStep_at_target {W : Int} {f : Nat} {x y : Int} {sdf : Int → Int}
    {p : Int × Int} (hle : sdf (p.2 * W + p.1) ≤ 10) :
    sdfStep W f x y sdf p (p.2 * W + p.1) =
      min (sdf (p.2 * W + p.1)) (min 10 (metricD f (x - p.1) (y - p.2))) := by
  unfold sdfStep
  split
  · rename_i hcond
    have hupd : updF sdf (p.2 * W + p.1) (metricD f (x - p.1) (y - p.2)) (p.2 * W + p.1) =
        metricD f (x - p.1) (y - p.2) := by
      unfold updF
      rw [if_pos rfl]
    rw [hupd]
    omega
  · rename_i hcond
    rw [not_and_or] at hcond
    omega

theorem foldl_sdfStep_at {W : Int} {f : Nat} {x y cx cy : Int} (ps : List (Int × Int))
    (sdf : Int → Int) (hsdf : sdfInRange sdf)
    (hOK : ∀ p ∈ ps, p ≠ (cx, cy) → p.2 * W + p.1 ≠ cy * W + cx) :
    (ps.foldl (sdfStep W f x y) sdf) (cy * W + cx) =
      if (cx, cy) ∈ ps then
        min (sdf (cy * W + cx)) (min 10 (metricD f (x - cx) (y - cy)))
      else sdf (cy * W + cx) := by
  induction ps generalizing sdf with
  | nil => simp
  | cons p rest ih =>
    rw [List.foldl_cons]
    by_cases hp : p = (cx, cy)
    · subst hp
      have h1 : sdfStep W f x y sdf (cx, cy) (cy * W + cx) =
          min (sdf (cy * W + cx)) (min 10 (metricD f (x - cx) (y - cy))) :=
        sdfStep_at_target (hsdf _).2
      rw [ih _ (sdfStep_inRange hsdf _) (fun q hq hne => hOK q (List.mem_cons_of_mem _ hq) hne),
        h1]
      by_cases hmem : (cx, cy) ∈ rest
      · rw [if_pos hmem, if_pos (List.mem_cons_self _ _)]
        omega
      · rw [if_neg hmem, if_pos (List.mem_cons_self _ _)]
    · have hne : p.2 * W + p.1 ≠ cy * W + cx := hOK p (List.mem_cons_self _ _) hp
      have h1 : sdfStep W f x y sdf p (cy * W + cx) = sdf (cy * W + cx) :=
        sdfStep_at_other hne
      rw [ih _ (sdfStep_inRange hsdf p) (fun q hq hne2 => hOK q (List.mem_cons_of_mem _ hq) hne2)]
      rw [h1]
      have hmemiff : ((cx, cy) ∈ p :: rest) ↔ ((cx, cy) ∈ rest) := by
        simp only [List.mem_cons]
        constructor
        · rintro (h | h)
          · exact absurd h.symm hp
          · exact h
        · exact Or.inr
      rw [if_congr hmemiff rfl rfl]

theorem updF_inRange {sdf : Int → Int} (h : sdfInRange sdf) {i v : Int}
    (hv : 0 ≤ v ∧ v ≤ 10) : sdfInRange (updF sdf i v) := by
  intro j
  unfold updF
  split
  · exact hv
  · exact h j

theorem splat_at {W H : Int} {f : Nat} (hf : f < 3) {x y cx cy : Int} (sdf : Int → Int)
    (hsdf : sdfInRange sdf)
    (hb : 0 ≤ x ∧ x < W ∧ 0 ≤ y ∧ y < H) (hc : 0 ≤ cx ∧ cx < W ∧ 0 ≤ cy ∧ cy < H) :
    splatCell W H f x y sdf (cy * W + cx) =
      min (sdf (cy * W + cx)) (min 10 (metricD f (x - cx) (y - cy))) := by
  obtain ⟨hx0, hxW, hy0, hyH⟩ := hb
  obtain ⟨hcx0, hcxW, hcy0, hcyH⟩ := hc
  have hminX0 : (0:Int) ≤ (if x - 10 < 0 then 0 else x - 10) := by split <;> omega
  have hmaxXW : (if W ≤ x + 10 then W - 1 else x + 10) ≤ W - 1 := by split <;> omega
  have hminY0 : (0:Int) ≤ (if y - 10 < 0 then 0 else y - 10) := by split <;> omega
  have hmaxYH : (if H ≤ y + 10 then H - 1 else y + 10) ≤ H - 1 := by split <;> omega
  rw [splat_as_pairs]
  have hsdf0 : sdfInRange (updF sdf (y * W + x) 0) := updF_inRange hsdf (by omega)
  have hOK : ∀ p ∈ windowPairs (if x - 10 < 0 then 0 else x - 10)
      (if W ≤ x + 10 then W - 1 else x + 10) (if y - 10 < 0 then 0 else y - 10)
      (if H ≤ y + 10 then H - 1 else y + 10),
      p ≠ (cx, cy) → p.2 * W + p.1 ≠ cy * W + cx := by
    intro p hp hne heq
    obtain ⟨hp1, hp2, hp3, hp4⟩ := mem_windowPairs.mp hp
    obtain ⟨he1, he2⟩ := rowMajor_inj (by omega) (by omega) hcx0 hcxW heq
    exact hne (Prod.ext he1 he2)
  rw [foldl_sdfStep_at _ _ hsdf0 hOK]
  by_cases hbc : x = cx ∧ y = cy
  · obtain ⟨rfl, rfl⟩ := hbc
    have hmem : (x, y) ∈ windowPairs (if x - 10 < 0 then 0 else x - 10)
        (if W ≤ x + 10 then W - 1 else x + 10) (if y - 10 < 0 then 0 else y - 10)
        (if H ≤ y + 10 then H - 1 else y + 10) := by
      rw [mem_windowPairs]
      refine ⟨?_, ?_, ?_, ?_⟩ <;> split <;> omega
    rw [if_pos hmem]
    have hupd : updF sdf (y * W + x) 0 (y * W + x) = 0 := by
      unfold updF
      rw [if_pos rfl]
    rw [hupd]
    have hz : metricD f (x - x) (y - y) = 0 := by
      rw [sub_self, sub_self]
      exact metricD_zero hf
    rw [hz]
    have := (hsdf (y * W + x)).1
    omega
  · have htne : cy * W + cx ≠ y * W + x := by
      intro heq
      obtain ⟨he1, he2⟩ := rowMajor_inj hcx0 hcxW hx0 hxW heq
      exact hbc ⟨he1.symm, he2.symm⟩
    have hupd : updF sdf (y * W + x) 0 (cy * W + cx) = sdf (cy * W + cx) := by
      unfold updF
      rw [if_neg htne]
    by_cases hmem : (cx, cy) ∈ windowPairs (if x - 10 < 0 then 0 else x - 10)
        (if W ≤ x + 10 then W - 1 else x + 10) (if y - 10 < 0 then 0 else y - 10)
        (if H ≤ y + 10 then H - 1 else y + 10)
    · rw [if_pos hmem, hupd]
    · rw [if_neg hmem, hupd]
      rw [mem_windowPairs] at hmem
      push_neg at hmem
      have habs : 11 ≤ (x - cx).natAbs ∨ 11 ≤ (y - cy).natAbs := by
        by_cases h1 : cx < (if x - 10 < 0 then 0 else x - 10)
        · left
          rcases lt_or_ge (x - 10) 0 with h2 | h2
          · rw [if_pos h2] at h1; omega
          · rw [if_neg (by omega)] at h1; omega
        · by_cases h2 : (if W ≤ x + 10 then W - 1 else x + 10) < cx
          · left
            rcases le_or_lt W (x + 10) with h3 | h3
            · rw [if_pos h3] at h2; omega
            · rw [if_neg (by omega)] at h2; omega
          · have h3 := hmem (by omega) (by omega)
            by_cases h4 : cy < (if y - 10 < 0 then 0 else y - 10)
            · right
              rcases lt_or_ge (y - 10) 0 with h5 | h5
              · rw [if_pos h5] at h4; omega
              · rw [if_neg (by omega)] at h4; omega
            · right
              have h5 : (if H ≤ y + 10 then H - 1 else y + 10) < cy := by omega
              rcases le_or_lt H (y + 10) with h6 | h6
              · rw [if_pos h6] at h5; omega
              · rw [if_neg (by omega)] at h5; omega
      have hgeX := metricD_ge_absX hf (x - cx) (y - cy)
      have hgeY := metricD_ge_absY hf (x - cx) (y - cy)
      have hr := (hsdf (cy * W + cx)).2
      rcases habs with h | h
      · have : (11:Int) ≤ ((x - cx).natAbs : Int) := by exact_mod_cast h
        omega
      · have : (11:Int) ≤ ((y - cy).natAbs : Int) := by exact_mod_cast h
        omega

theorem foldl_buildStep_at {W H : Int} {blocked : Int → Bool} {f : Nat} (hf : f < 3)
    {cx cy : Int} (hc : 0 ≤ cx ∧ cx < W ∧ 0 ≤ cy ∧ cy < H) (ps : List (Int × Int))
    (hps : ∀ p ∈ ps, 0 ≤ p.1 ∧ p.1 < W ∧ 0 ≤ p.2 ∧ p.2 < H)
    (sdf : Int → Int) (hsdf : sdfInRange sdf) :
    (ps.foldl (buildStep W H blocked f) sdf) (cy * W + cx) =
      (ps.filter (fun p => blocked (p.2 * W + p.1))).foldl
        (fun v p => min v (min 10 (metricD f (p.1 - cx) (p.2 - cy)))) (sdf (cy * W + cx)) := by
  induction ps generalizing sdf with
  | nil => rfl
  | cons p rest ih =>
    rw [List.foldl_cons]
    by_cases hbl : blocked (p.2 * W + p.1)
    · have hstep : buildStep W H blocked f sdf p = splatCell W H f p.1 p.2 sdf := by
        unfold buildStep
        rw [if_pos hbl]
      rw [hstep, List.filter_cons_of_pos (by simpa using hbl), List.foldl_cons,
        ih (fun q hq => hps q (List.mem_cons_of_mem _ hq)) _ (splat_inRange hsdf)]
      rw [splat_at hf sdf hsdf (hps p (List.mem_cons_self _ _)) hc]
    · have hstep : buildStep W H blocked f sdf p = sdf := by
        unfold buildStep
        rw [if_neg hbl]
      rw [hstep, List.filter_cons_of_neg (by simpa using hbl)]
      exact ih (fun q hq => hps q (List.mem_cons_of_mem _ hq)) _ hsdf

theorem foldl_min_sat (m : Int × Int → Int) (ps : List (Int × Int)) (v : Int)
    (hv : v ≤ 10) :
    ps.foldl (fun v p => min v (min 10 (m p))) v = ps.foldl (fun v p => min v (m p)) v := by
  induction ps generalizing v with
  | nil => rfl
  | cons p rest ih =>
    rw [List.foldl_cons, List.foldl_cons]
    have h1 : min v (min 10 (m p)) = min v (m p) := by omega
    rw [h1]
    exact ih _ (by omega)

theorem foldl_min_le_init (m : Int × Int → Int) (ps : List (Int × Int)) (v : Int) :
    ps.foldl (fun v p => min v (m p)) v ≤ v := by
  induction ps generalizing v with
  | nil => exact le_refl v
  | cons p rest ih =>
    rw [List.foldl_cons]
    exact le_trans (ih _) (by omega)

theorem foldl_min_le_mem (m : Int × Int → Int) {ps : List (Int × Int)} {p : Int × Int}
    (hp : p ∈ ps) (v : Int) : ps.foldl (fun v p => min v (m p)) v ≤ m p := by
  induction ps generalizing v with
  | nil => cases hp
  | cons q rest ih =>
    rw [List.foldl_cons]
    rcases List.mem_cons.mp hp with h | h
    · subst h
      exact le_trans (foldl_min_le_init m rest _) (by omega)
    · exact ih h _

theorem foldl_min_nonneg (m : Int × Int → Int) (ps : List (Int × Int)) :
    ∀ v : Int, 0 ≤ v → (∀ p ∈ ps, 0 ≤ m p) →
    0 ≤ ps.foldl (fun v p => min v (m p)) v := by
  induction ps with
  | nil => exact fun v hv _ => hv
  | cons p rest ih =>
    intro v hv hm
    rw [List.foldl_cons]
    refine ih _ ?_ (fun q hq => hm q (List.mem_cons_of_mem _ hq))
    have := hm p (List.mem_cons_self _ _)
    omega

theorem buildSdfCells_eq_spec {W H : Int} (blocked : Int → Bool) {f : Nat} (hf : f < 3)
    {cx cy : Int} (hc : 0 ≤ cx ∧ cx < W ∧ 0 ≤ cy ∧ cy < H) :
    buildSdfCells W H blocked f (cy * W + cx) = specClearance W H blocked f cx cy := by
  rw [build_as_pairs]
  have h10 : sdfInRange (fun _ => (10:Int)) := fun _ => by constructor <;> norm_num
  rw [foldl_buildStep_at hf hc (cellPairs W H)
    (fun p hp => by
      obtain ⟨h1, h2, h3, h4⟩ := mem_cellPairs.mp hp
      exact ⟨h1, by omega, h3, by omega⟩) _ h10]
  unfold specClearance
  exact foldl_min_sat _ _ 10 (le_refl 10)

theorem buildSdfCells_inRange (W H : Int) (blocked : Int → Bool) (f : Nat) :
    sdfInRange (buildSdfCells W H blocked f) := by
  rw [build_as_pairs]
  have h10 : sdfInRange (fun _ => (10:Int)) := fun _ => by constructor <;> norm_num
  generalize (fun _ => (10:Int)) = g at h10
  induction (cellPairs W H) generalizing g with
  | nil => exact h10
  | cons p rest ih =>
    rw [List.foldl_cons]
    apply ih
    unfold buildStep
    split
    · exact splat_inRange h10
    · exact h10

theorem specClearance_blocked {W H : Int} {blocked : Int → Bool} {f : Nat} (hf : f < 3)
    {cx cy : Int} (hc : 0 ≤ cx ∧ cx < W ∧ 0 ≤ cy ∧ cy < H)
    (hb : blocked (cy * W + cx) = true) : specClearance W H blocked f cx cy = 0 := by
  unfold specClearance
  have hmem : ((cx, cy) : Int × Int) ∈
      (cellPairs W H).filter (fun b => blocked (b.2 * W + b.1)) := by
    rw [List.mem_filter]
    exact ⟨mem_cellPairs.mpr ⟨hc.1, by omega, hc.2.2.1, by omega⟩, by simpa using hb⟩
  have h1 := foldl_min_le_mem (fun b => metricD f (b.1 - cx) (b.2 - cy)) hmem 10
  have h2 : (0:Int) ≤ ((cellPairs W H).filter (fun b => blocked (b.2 * W + b.1))).foldl
      (fun v p => min v (metricD f (p.1 - cx) (p.2 - cy))) 10 :=
    foldl_min_nonneg (fun b => metricD f (b.1 - cx) (b.2 - cy))
      ((cellPairs W H).filter (fun b => blocked (b.2 * W + b.1))) 10 (by norm_num)
      (fun p _ => metricD_nonneg f _ _)
  have h3 : metricD f (cx - cx) (cy - cy) = 0 := by
    rw [sub_self, sub_self]
    exact metricD_zero hf
  simp only [h3] at h1
  omega

theorem specClearance_empty {W H : Int} {blocked : Int → Bool} {f : Nat}
    (hempty : ∀ p ∈ cellPairs W H, blocked (p.2 * W + p.1) = false)
    (cx cy : Int) : specClearance W H blocked f cx cy = 10 := by
  unfold specClearance
  have hnil : (cellPairs W H).filter (fun b => blocked (b.2 * W + b.1)) = [] := by
    rw [List.filter_eq_nil_iff]
    intro p hp
    simp [hempty p hp]
  rw [hnil]
  rfl

/-! ### Case analysis of the neighbor-loop body -/

theorem allowed_guards {env : SearchEnv} {o : NeighborOffset} {node : PathfindingNode}
    {maxD : Int} (hmaxD : maxD = maxDistAt env node.x node.y)
    (h : allowedMove env o node.x node.y) :
    ¬(maxD < o.distance ∨ (¬env.enableJumping ∧ 1 < o.distance)) ∧
    ¬(node.x + o.x < 0 ∨ env.W ≤ node.x + o.x ∨ node.y + o.y < 0 ∨ env.H ≤ node.y + o.y) ∧
    ¬(env.sdfCells ((node.y + o.y) * env.W + (node.x + o.x)) < env.unitSize) := by
  obtain ⟨h1, h2, h3, h4⟩ := h
  subst hmaxD
  refine ⟨?_, ?_, ?_⟩
  · rintro (hc | ⟨hej, hd⟩)
    · omega
    · rcases h2 with hb | hd2
      · exact hej hb
      · omega
  · obtain ⟨b1, b2, b3, b4⟩ := h3
    unfold idxOf at *
    omega
  · unfold idxOf at h4
    omega

theorem guards_allowed {env : SearchEnv} {o : NeighborOffset} {node : PathfindingNode}
    {maxD : Int} (hmaxD : maxD = maxDistAt env node.x node.y)
    (g1 : ¬(maxD < o.distance ∨ (¬env.enableJumping ∧ 1 < o.distance)))
    (g2 : ¬(node.x + o.x < 0 ∨ env.W ≤ node.x + o.x ∨ node.y + o.y < 0 ∨ env.H ≤ node.y + o.y))
    (g3 : ¬(env.sdfCells ((node.y + o.y) * env.W + (node.x + o.x)) < env.unitSize)) :
    allowedMove env o node.x node.y := by
  subst hmaxD
  push_neg at g1 g2 g3
  refine ⟨g1.1, ?_, ?_, ?_⟩
  · by_cases hej : env.enableJumping
    · exact Or.inl hej
    · refine Or.inr ?_
      have := g1.2
      by_contra hd
      exact absurd (this hej) (by omega)
  · exact ⟨g2.1, g2.2.1, g2.2.2.1, g2.2.2.2⟩
  · exact g3

theorem relaxNeighbor_not_allowed {env : SearchEnv} {node : PathfindingNode}
    {cellSdf maxD : Int} {s : SearchState} {o : NeighborOffset}
    (hmaxD : maxD = maxDistAt env node.x node.y)
    (h : ¬ allowedMove env o node.x node.y) :
    relaxNeighbor env node cellSdf maxD s o = s := by
  unfold relaxNeighbor
  dsimp only
  split
  · rfl
  · split
    · rfl
    · split
      · rfl
      · rename_i g1 g2 g3
        exact absurd (guards_allowed hmaxD g1 g2 g3) h

theorem relax_score_eq {env : SearchEnv} {node : PathfindingNode} {o : NeighborOffset}
    (cellSdf : Int) (hcell : cellSdf = env.sdfCells (idxOf env node.x node.y)) :
    node.score + o.distance +
      cdiv (cdiv ((env.sdfCells ((node.y + o.y) * env.W + (node.x + o.x)) + cellSdf) *
        (o.distance + 1)) 2 * env.sdfFactor) 6 =
    node.score + moveCost env o node.x node.y := by
  subst hcell
  unfold moveCost idxOf
  ring

theorem relaxNeighbor_no_update {env : SearchEnv} {node : PathfindingNode}
    {cellSdf maxD : Int} {s : SearchState} {o : NeighborOffset}
    (hmaxD : maxD = maxDistAt env node.x node.y)
    (hcell : cellSdf = env.sdfCells (idxOf env node.x node.y))
    (h : allowedMove env o node.x node.y)
    (hno : ¬((s.map (idxOf env (node.x + o.x) (node.y + o.y))).score = 0 ∨
      node.score + moveCost env o node.x node.y <
        (s.map (idxOf env (node.x + o.x) (node.y + o.y))).score)) :
    relaxNeighbor env node cellSdf maxD s o = s := by
  obtain ⟨g1, g2, g3⟩ := allowed_guards hmaxD h
  unfold relaxNeighbor
  rw [if_neg g1, if_neg g2, if_neg g3]
  rw [if_neg ?hcond]
  case hcond =>
    rw [relax_score_eq cellSdf hcell]
    exact hno

theorem relaxNeighbor_update {env : SearchEnv} {node : PathfindingNode}
    {cellSdf maxD : Int} {s : SearchState} {o : NeighborOffset}
    (hmaxD : maxD = maxDistAt env node.x node.y)
    (hcell : cellSdf = env.sdfCells (idxOf env node.x node.y))
    (h : allowedMove env o node.x node.y)
    (hup : (s.map (idxOf env (node.x + o.x) (node.y + o.y))).score = 0 ∨
      node.score + moveCost env o node.x node.y <
        (s.map (idxOf env (node.x + o.x) (node.y + o.y))).score) :
    relaxNeighbor env node cellSdf maxD s o =
      relaxPush env s (idxOf env (node.x + o.x) (node.y + o.y))
        ⟨node.x + o.x, node.y + o.y, node.x, node.y,
          node.score + moveCost env o node.x node.y⟩ := by
  obtain ⟨g1, g2, g3⟩ := allowed_guards hmaxD h
  unfold relaxNeighbor
  dsimp only
  rw [if_neg g1, if_neg g2, if_neg g3]
  rw [if_pos ?hcond]
  case hcond =>
    rw [relax_score_eq cellSdf hcell]
    exact hup
  rw [relax_score_eq cellSdf hcell]
  unfold relaxPush idxOf
  rw [List.length_append]
  rfl

/-! ### The dequeue of the lowest-score entry -/

theorem getD_eq_getElem {q : List PathfindingNode} {i : Nat} (hi : i < q.length) :
    q.getD i noNode = q[i] := by
  rw [List.getD_eq_getElem?_getD, List.getElem?_eq_getElem hi]
  rfl

theorem getD_mem {q : List PathfindingNode} {i : Nat} (hi : i < q.length) :
    q.getD i noNode ∈ q := by
  rw [getD_eq_getElem hi]
  exact List.getElem_mem hi

theorem foldbest_lt (q : List PathfindingNode) (l : List Nat)
    (hl : ∀ i ∈ l, i < q.length) (b0 : Nat) (hb0 : b0 < q.length) :
    l.foldl (fun best i =>
      if (q.getD i noNode).score < (q.getD best noNode).score then i else best) b0 <
      q.length := by
  induction l generalizing b0 with
  | nil => exact hb0
  | cons i rest ih =>
    rw [List.foldl_cons]
    split
    · exact ih (fun j hj => hl j (List.mem_cons_of_mem _ hj)) i (hl i (List.mem_cons_self _ _))
    · exact ih (fun j hj => hl j (List.mem_cons_of_mem _ hj)) b0 hb0

theorem foldbest_min (q : List PathfindingNode) (l : List Nat) (b0 : Nat) :
    (q.getD (l.foldl (fun best i =>
        if (q.getD i noNode).score < (q.getD best noNode).score then i else best) b0)
      noNode).score ≤ (q.getD b0 noNode).score ∧
    ∀ i ∈ l, (q.getD (l.foldl (fun best i =>
        if (q.getD i noNode).score < (q.getD best noNode).score then i else best) b0)
      noNode).score ≤ (q.getD i noNode).score := by
  induction l generalizing b0 with
  | nil => exact ⟨le_refl _, fun i hi => absurd hi (List.not_mem_nil i)⟩
  | cons i rest ih =>
    rw [List.foldl_cons]
    split
    · rename_i hlt
      obtain ⟨ha, hb⟩ := ih i
      refine ⟨by omega, ?_⟩
      intro j hj
      rcases List.mem_cons.mp hj with h | h
      · subst h; exact ha
      · exact hb j h
    · rename_i hge
      obtain ⟨ha, hb⟩ := ih b0
      refine ⟨ha, ?_⟩
      intro j hj
      rcases List.mem_cons.mp hj with h | h
      · subst h; omega
      · exact hb j h

theorem lowestScoreIndex_lt {q : List PathfindingNode} (h : q ≠ []) :
    lowestScoreIndex q < q.length := by
  unfold lowestScoreIndex
  exact foldbest_lt q _ (fun i hi => List.mem_range.mp hi) 0 (List.length_pos.mpr h)

theorem lowestScoreIndex_min {q : List PathfindingNode} (e : PathfindingNode)
    (he : e ∈ q) : (q.getD (lowestScoreIndex q) noNode).score ≤ e.score := by
  obtain ⟨i, hi, rfl⟩ := List.mem_iff_getElem.mp he
  unfold lowestScoreIndex
  have := (foldbest_min q (List.range q.length) 0).2 i (List.mem_range.mpr hi)
  rwa [getD_eq_getElem hi] at this

theorem pop_perm {q : List PathfindingNode} {i : Nat} (hi : i < q.length) :
    List.Perm (q.getD i noNode :: q.eraseIdx i) q := by
  induction q generalizing i with
  | nil => simp at hi
  | cons a t ih =>
    cases i with
    | zero => simp [List.eraseIdx]
    | succ n =>
      simp only [List.getD_cons_succ, List.eraseIdx_cons_succ]
      have h2 : n < t.length := by simpa using hi
      exact (List.Perm.swap a _ _).trans ((ih h2).cons a)

theorem searchStep_eq {env : SearchEnv} {s : SearchState} (h : ¬ s.queue = []) :
    searchStep env s = env.offsets.foldl
      (relaxNeighbor env (s.queue.getD (lowestScoreIndex s.queue) noNode)
        (env.sdfCells (idxOf env (s.queue.getD (lowestScoreIndex s.queue) noNode).x
          (s.queue.getD (lowestScoreIndex s.queue) noNode).y))
        (maxDistAt env (s.queue.getD (lowestScoreIndex s.queue) noNode).x
          (s.queue.getD (lowestScoreIndex s.queue) noNode).y))
      { map := s.map, queue := s.queue.eraseIdx (lowestScoreIndex s.queue),
        overflow := s.overflow,
        popped := s.popped ++ [(s.queue.getD (lowestScoreIndex s.queue) noNode).score] } := by
  unfold searchStep
  rw [if_neg h]
  rfl

/-! ### Views of the push and small search helpers -/

theorem updN_at (m : Int → PathfindingNode) (i : Int) (v : PathfindingNode) :
    updN m i v i = v := by
  unfold updN
  rw [if_pos rfl]

theorem updN_ne (m : Int → PathfindingNode) {i j : Int} (v : PathfindingNode)
    (h : j ≠ i) : updN m i v j = m j := by
  unfold updN
  rw [if_neg h]

theorem idxOf_inj {env : SearchEnv} {x y x2 y2 : Int} (h1 : inBounds env x y)
    (h2 : inBounds env x2 y2) (he : idxOf env x y = idxOf env x2 y2) :
    x = x2 ∧ y = y2 := by
  obtain ⟨a1, a2, a3, a4⟩ := h1
  obtain ⟨b1, b2, b3, b4⟩ := h2
  exact rowMajor_inj a1 a2 b1 b2 he

theorem moveCost_ge {env : SearchEnv} (hok : EnvOK env) {o : NeighborOffset}
    (ho : o ∈ env.offsets) (fx fy : Int) :
    o.distance ≤ moveCost env o fx fy ∧ 1 ≤ moveCost env o fx fy := by
  have hd := hok.offsetsPos o ho
  have hs1 := hok.sdfNN (idxOf env (fx + o.x) (fy + o.y))
  have hs2 := hok.sdfNN (idxOf env fx fy)
  have h1 : (0:Int) ≤ cdiv ((env.sdfCells (idxOf env (fx + o.x) (fy + o.y)) +
      env.sdfCells (idxOf env fx fy)) * (o.distance + 1)) 2 :=
    Int.tdiv_nonneg (mul_nonneg (by omega) (by omega)) (by norm_num)
  have h2 : (0:Int) ≤ cdiv ((env.sdfCells (idxOf env (fx + o.x) (fy + o.y)) +
      env.sdfCells (idxOf env fx fy)) * (o.distance + 1)) 2 * env.sdfFactor :=
    mul_nonneg h1 hok.factorNN
  have h3 : (0:Int) ≤ cdiv (cdiv ((env.sdfCells (idxOf env (fx + o.x) (fy + o.y)) +
      env.sdfCells (idxOf env fx fy)) * (o.distance + 1)) 2 * env.sdfFactor) 6 :=
    Int.tdiv_nonneg h2 (by norm_num)
  unfold moveCost
  omega

theorem relaxPush_map (env : SearchEnv) (s : SearchState) (i : Int)
    (nn : PathfindingNode) : (relaxPush env s i nn).map = updN s.map i nn := by
  unfold relaxPush
  split <;> rfl

theorem relaxPush_popped (env : SearchEnv) (s : SearchState) (i : Int)
    (nn : PathfindingNode) : (relaxPush env s i nn).popped = s.popped := by
  unfold relaxPush
  split <;> rfl

theorem relaxPush_mem {env : SearchEnv} {s : SearchState} {i : Int}
    {nn e : PathfindingNode} (h : e ∈ (relaxPush env s i nn).queue) :
    e ∈ s.queue ∨ e = nn := by
  unfold relaxPush at h
  split at h
  · have h2 : e ∈ s.queue ++ [nn] := List.mem_of_mem_take h
    rcases List.mem_append.mp h2 with h3 | h3
    · exact Or.inl h3
    · exact Or.inr (List.mem_singleton.mp h3)
  · rcases List.mem_append.mp h with h3 | h3
    · exact Or.inl h3
    · exact Or.inr (List.mem_singleton.mp h3)

theorem relaxPush_no_ovf {env : SearchEnv} {s : SearchState} {i : Int}
    {nn : PathfindingNode} (h : (relaxPush env s i nn).overflow = false) :
    s.overflow = false ∧ (relaxPush env s i nn).queue = s.queue ++ [nn] := by
  unfold relaxPush at *
  split at h
  · exact absurd h (by simp)
  · exact ⟨h, by rename_i hc; rw [if_neg hc]⟩

theorem relaxPush_len {env : SearchEnv} {s : SearchState} {i : Int}
    {nn : PathfindingNode} (hq : s.queue.length ≤ (env.W * env.H).toNat) :
    (relaxPush env s i nn).queue.length ≤ (env.W * env.H).toNat := by
  unfold relaxPush
  split
  · calc ((s.queue ++ [nn]).take ((env.W * env.H).toNat - 1)).length
        ≤ (env.W * env.H).toNat - 1 := by
          rw [List.length_take]
          omega
      _ ≤ (env.W * env.H).toNat := by omega
  · rename_i hc
    rw [List.length_append]
    simp only [List.length_singleton]
    omega

/-! ### Converting the pending marker -/

theorem SearchInv_convert {env : SearchEnv} {sx sy : Int}
    {p1 p2 : Int → Int → NeighborOffset → Prop} {s : SearchState}
    (h : SearchInv env sx sy p1 s)
    (hconv : ∀ fx fy o, o ∈ env.offsets → allowedMove env o fx fy →
      1 ≤ (s.map (idxOf env fx fy)).score → s.overflow = false → p1 fx fy o →
      EdgeClosedg env p2 s fx fy o) :
    SearchInv env sx sy p2 s := by
  refine ⟨h.qLen, h.qMem, h.seed, h.zeroOne, h.coords, h.reach, h.sdfAbove, ?_, ?_, h.sorted⟩
  · intro x y hb hs hns
    obtain ⟨o, ho, e1, e2, e3, e4, e5, e6, e7⟩ := h.pred x y hb hs hns
    refine ⟨o, ho, e1, e2, e3, e4, e5, e6, ?_⟩
    intro hovf
    rcases e7 hovf with heq | hwit | hp
    · exact Or.inl heq
    · exact Or.inr (Or.inl hwit)
    · rcases hconv _ _ o ho e3 e5 hovf hp with hcl | hwit2 | hp2
      · rw [e1, e2] at hcl
        exact Or.inl (le_antisymm hcl.2 e6)
      · exact Or.inr (Or.inl hwit2)
      · exact Or.inr (Or.inr hp2)
  · intro hovf fx fy hb hs o ho hal
    rcases h.closure hovf fx fy hb hs o ho hal with hc | hw | hp
    · exact Or.inl hc
    · exact Or.inr (Or.inl hw)
    · exact hconv fx fy o ho hal hs hovf hp

/-! ### Preservation of the invariant by one successful relaxation -/

set_option maxHeartbeats 1000000 in
theorem relaxPush_preserve {env : SearchEnv} (hok : EnvOK env) {sx sy : Int}
    (hstart : inBounds env sx sy) {node : PathfindingNode} {fscore : Int}
    {o : NeighborOffset} (ho : o ∈ env.offsets) {rem : List NeighborOffset}
    {s : SearchState}
    (hinv : SearchInv env sx sy (pendFor node fscore (o :: rem)) s)
    (hctx : StepCtx env node fscore s)
    (hallow : allowedMove env o node.x node.y)
    (hup : (s.map (idxOf env (node.x + o.x) (node.y + o.y))).score = 0 ∨
      node.score + moveCost env o node.x node.y <
        (s.map (idxOf env (node.x + o.x) (node.y + o.y))).score) :
    SearchInv env sx sy (pendFor node fscore rem)
      (relaxPush env s (idxOf env (node.x + o.x) (node.y + o.y))
        ⟨node.x + o.x, node.y + o.y, node.x, node.y,
          node.score + moveCost env o node.x node.y⟩) ∧
    StepCtx env node fscore
      (relaxPush env s (idxOf env (node.x + o.x) (node.y + o.y))
        ⟨node.x + o.x, node.y + o.y, node.x, node.y,
          node.score + moveCost env o node.x node.y⟩) := by
  obtain ⟨hcge, hc1⟩ := moveCost_ge hok ho node.x node.y
  have htB : inBounds env (node.x + o.x) (node.y + o.y) := hallow.2.2.1
  have hnodeB := hctx.nodeB
  have hnz := hok.offsetsNZ o ho
  have hfne : ¬(node.x = node.x + o.x ∧ node.y = node.y + o.y) := by
    rintro ⟨h1, h2⟩
    exact hnz ⟨by omega, by omega⟩
  have hidxfne : idxOf env node.x node.y ≠ idxOf env (node.x + o.x) (node.y + o.y) :=
    fun he => hfne (idxOf_inj hnodeB htB he)
  have hcand2 : 2 ≤ node.score + moveCost env o node.x node.y := by
    have := hctx.node1
    omega
  have hfvis : 1 ≤ (s.map (idxOf env node.x node.y)).score := by
    rw [hctx.fEq]
    exact hctx.f1
  have htns : ¬(node.x + o.x = sx ∧ node.y + o.y = sy) := by
    rintro ⟨h1, h2⟩
    have he : idxOf env (node.x + o.x) (node.y + o.y) = idxOf env sx sy := by
      unfold idxOf
      rw [h1, h2]
    rw [he, hinv.seed] at hup
    rcases hup with h3 | h3
    · exact absurd h3 (by norm_num)
    · dsimp only at h3
      omega
  set s2 := relaxPush env s (idxOf env (node.x + o.x) (node.y + o.y))
    ⟨node.x + o.x, node.y + o.y, node.x, node.y,
      node.score + moveCost env o node.x node.y⟩ with hs2def
  have hmap2 : s2.map = updN s.map (idxOf env (node.x + o.x) (node.y + o.y))
      ⟨node.x + o.x, node.y + o.y, node.x, node.y,
        node.score + moveCost env o node.x node.y⟩ := relaxPush_map env s _ _
  have hpop2 : s2.popped = s.popped := relaxPush_popped env s _ _
  have hmem2 : ∀ e ∈ s2.queue, e ∈ s.queue ∨ e = ⟨node.x + o.x, node.y + o.y, node.x,
      node.y, node.score + moveCost env o node.x node.y⟩ := fun e he => relaxPush_mem he
  have hlen2 : s2.queue.length ≤ (env.W * env.H).toNat := relaxPush_len hinv.qLen
  have hmT : s2.map (idxOf env (node.x + o.x) (node.y + o.y)) =
      ⟨node.x + o.x, node.y + o.y, node.x, node.y,
        node.score + moveCost env o node.x node.y⟩ := by
    rw [hmap2]
    exact updN_at _ _ _
  have hmapne : ∀ j, j ≠ idxOf env (node.x + o.x) (node.y + o.y) → s2.map j = s.map j := by
    intro j hj
    rw [hmap2]
    exact updN_ne _ _ hj
  have hmapf : s2.map (idxOf env node.x node.y) = s.map (idxOf env node.x node.y) :=
    hmapne _ hidxfne
  have hmapAt : ∀ x y, inBounds env x y →
      (x = node.x + o.x ∧ y = node.y + o.y) ∨
      (s2.map (idxOf env x y) = s.map (idxOf env x y) ∧
        idxOf env x y ≠ idxOf env (node.x + o.x) (node.y + o.y)) := by
    intro x y hbxy
    by_cases he : idxOf env x y = idxOf env (node.x + o.x) (node.y + o.y)
    · exact Or.inl (idxOf_inj hbxy htB he)
    · exact Or.inr ⟨hmapne _ he, he⟩
  have hstartne : idxOf env sx sy ≠ idxOf env (node.x + o.x) (node.y + o.y) := by
    intro he
    obtain ⟨h1, h2⟩ := idxOf_inj hstart htB he
    exact htns ⟨h1.symm, h2.symm⟩
  have hnoOvf : s2.overflow = false → s.overflow = false ∧ s2.queue = s.queue ++
      [⟨node.x + o.x, node.y + o.y, node.x, node.y,
        node.score + moveCost env o node.x node.y⟩] := by
    intro hovf
    rw [hs2def] at hovf ⊢
    exact relaxPush_no_ovf hovf
  refine ⟨⟨hlen2, ?qMem, ?seed, ?zeroOne, ?coords, ?reach, ?sdfAbove, ?pred, ?closure,
    ?sorted⟩, ⟨hnodeB, hctx.node1, ?fEq2, hctx.fLe, hctx.f1, ?lastP2⟩⟩
  case fEq2 =>
    rw [hmapf]
    exact hctx.fEq
  case lastP2 =>
    rw [hpop2]
    exact hctx.lastP
  case seed =>
    rw [hmapne _ hstartne]
    exact hinv.seed
  case qMem =>
    intro e he
    rcases hmem2 e he with heq | rfl
    · obtain ⟨q1, q2, q3, q4⟩ := hinv.qMem e heq
      refine ⟨q1, q2, ?_, ?_⟩
      · rcases hmapAt e.x e.y q1 with ⟨hex, hey⟩ | ⟨hmeq, _⟩
        · rw [hex, hey, hmT]
          dsimp only
          omega
        · rw [hmeq]
          exact q3
      · rcases hmapAt e.x e.y q1 with ⟨hex, hey⟩ | ⟨hmeq, _⟩
        · rw [hex, hey] at q3 q4
          rw [hex, hey, hmT]
          dsimp only
          rcases hup with h0 | himp
          · omega
          · omega
        · rw [hmeq]
          exact q4
    · refine ⟨htB, by dsimp only; omega, ?_, ?_⟩
      · show 1 ≤ (s2.map (idxOf env (node.x + o.x) (node.y + o.y))).score
        rw [hmT]
        dsimp only
        omega
      · show (s2.map (idxOf env (node.x + o.x) (node.y + o.y))).score ≤ _
        rw [hmT]
  case zeroOne =>
    intro x y hb
    rcases hmapAt x y hb with ⟨hx, hy⟩ | ⟨hmeq, _⟩
    · subst hx
      subst hy
      rw [hmT]
      dsimp only
      omega
    · rw [hmeq]
      exact hinv.zeroOne x y hb
  case coords =>
    intro x y hb hs
    rcases hmapAt x y hb with ⟨hx, hy⟩ | ⟨hmeq, _⟩
    · subst hx
      subst hy
      rw [hmT]
      exact ⟨rfl, rfl⟩
    · rw [hmeq] at hs ⊢
      exact hinv.coords x y hb hs
  case reach =>
    intro x y hb hs
    rcases hmapAt x y hb with ⟨hx, hy⟩ | ⟨hmeq, _⟩
    · subst hx
      subst hy
      exact Reach.tail o ho hallow (hinv.reach node.x node.y hnodeB hfvis)
    · rw [hmeq] at hs
      exact hinv.reach x y hb hs
  case sdfAbove =>
    intro x y hb hs hns
    rcases hmapAt x y hb with ⟨hx, hy⟩ | ⟨hmeq, _⟩
    · subst hx
      subst hy
      exact hallow.2.2.2
    · rw [hmeq] at hs
      exact hinv.sdfAbove x y hb hs hns
  case sorted =>
    refine ⟨by rw [hpop2]; exact hinv.sorted.1, ?_⟩
    intro l hl e he
    rw [hpop2] at hl
    rcases hmem2 e he with heq | rfl
    · exact hinv.sorted.2 l hl e heq
    · have hln : node.score = l := by
        rw [hctx.lastP] at hl
        exact Option.some.inj hl
      show l ≤ node.score + moveCost env o node.x node.y
      omega
  case pred =>
    intro x y hb hs hns
    rcases hmapAt x y hb with ⟨hx, hy⟩ | ⟨hmeq, hne⟩
    · subst hx
      subst hy
      unfold PredOKg
      rw [hmT]
      dsimp only
      refine ⟨o, ho, rfl, rfl, hallow, hnodeB, ?_, ?_, ?_⟩
      · rw [hmapf]
        exact hfvis
      · rw [hmapf, hctx.fEq]
        have := hctx.fLe
        omega
      · intro hovf
        obtain ⟨hovfS, hq2⟩ := hnoOvf hovf
        by_cases hfr : node.score = fscore
        · refine Or.inl ?_
          rw [hmapf, hctx.fEq, hfr]
        · rcases hinv.closure hovfS node.x node.y hnodeB hfvis o ho hallow with
            ⟨hA, hB⟩ | ⟨e, heQ, hex, hey, hesc⟩ | ⟨_, _, hfr2, _⟩
          · exfalso
            rw [hctx.fEq] at hB
            have hlt : fscore < node.score := lt_of_le_of_ne hctx.fLe (fun h => hfr h.symm)
            rcases hup with h0 | himp
            · omega
            · omega
          · refine Or.inr (Or.inl ⟨e, ?_, hex, hey, ?_⟩)
            · rw [hq2]
              exact List.mem_append_left _ heQ
            · rw [hmapf]
              exact hesc
          · exact absurd hfr2 hfr
    · rw [hmeq] at hs
      have hpold := hinv.pred x y hb hs hns
      unfold PredOKg at hpold ⊢
      rw [hmeq]
      obtain ⟨o2, ho2, e1, e2, e3, e4, e5, e6, e7⟩ := hpold
      by_cases hf2 : idxOf env (s.map (idxOf env x y)).fromX (s.map (idxOf env x y)).fromY =
          idxOf env (node.x + o.x) (node.y + o.y)
      · obtain ⟨hf2x, hf2y⟩ := idxOf_inj e4 htB hf2
        refine ⟨o2, ho2, e1, e2, e3, e4, ?_, ?_, ?_⟩
        · rw [hf2, hmT]
          dsimp only
          omega
        · rw [hf2, hmT]
          dsimp only
          rw [hf2] at e5 e6
          rcases hup with h0 | himp
          · omega
          · omega
        · intro hovf
          obtain ⟨hovfS, hq2⟩ := hnoOvf hovf
          refine Or.inr (Or.inl ⟨⟨node.x + o.x, node.y + o.y, node.x, node.y,
            node.score + moveCost env o node.x node.y⟩, ?_, ?_, ?_, ?_⟩)
          · rw [hq2]
            exact List.mem_append_right _ (List.mem_singleton.mpr rfl)
          · dsimp only
            exact hf2x.symm
          · dsimp only
            exact hf2y.symm
          · rw [hf2, hmT]
      · refine ⟨o2, ho2, e1, e2, e3, e4, ?_, ?_, ?_⟩
        · rw [hmapne _ hf2]
          exact e5
        · rw [hmapne _ hf2]
          exact e6
        · intro hovf
          obtain ⟨hovfS, hq2⟩ := hnoOvf hovf
          rcases e7 hovfS with heq2 | ⟨e, heQ, hex, hey, hesc⟩ | ⟨ha, hb2, hc2, hd2⟩
          · refine Or.inl ?_
            rw [hmapne _ hf2]
            exact heq2
          · refine Or.inr (Or.inl ⟨e, ?_, hex, hey, ?_⟩)
            · rw [hq2]
              exact List.mem_append_left _ heQ
            · rw [hmapne _ hf2]
              exact hesc
          · rcases List.mem_cons.mp hd2 with hoeq | hmemr
            · exfalso
              apply hne
              have hxx : x = node.x + o.x := by
                rw [← e1, ha, hoeq]
              have hyy : y = node.y + o.y := by
                rw [← e2, hb2, hoeq]
              rw [hxx, hyy]
            · exact Or.inr (Or.inr ⟨ha, hb2, hc2, hmemr⟩)
  case closure =>
    intro hovf fx fy hb hsc o2 ho2 hal2
    obtain ⟨hovfS, hq2⟩ := hnoOvf hovf
    by_cases hg : idxOf env fx fy = idxOf env (node.x + o.x) (node.y + o.y)
    · obtain ⟨hgx, hgy⟩ := idxOf_inj hb htB hg
      refine Or.inr (Or.inl ⟨⟨node.x + o.x, node.y + o.y, node.x, node.y,
        node.score + moveCost env o node.x node.y⟩, ?_, ?_, ?_, ?_⟩)
      · rw [hq2]
        exact List.mem_append_right _ (List.mem_singleton.mpr rfl)
      · dsimp only
        exact hgx.symm
      · dsimp only
        exact hgy.symm
      · rw [hg, hmT]
    · rw [hmapne _ hg] at hsc
      rcases hinv.closure hovfS fx fy hb hsc o2 ho2 hal2 with
        ⟨hA, hB⟩ | ⟨e, heQ, hex, hey, hesc⟩ | ⟨ha, hb2, hc2, hd2⟩
      · by_cases ht2 : idxOf env (fx + o2.x) (fy + o2.y) =
            idxOf env (node.x + o.x) (node.y + o.y)
        · refine Or.inl ⟨?_, ?_⟩
          · rw [ht2, hmT]
            dsimp only
            omega
          · rw [ht2, hmT, hmapne _ hg]
            dsimp only
            rw [ht2] at hA hB
            rcases hup with h0 | himp
            · omega
            · omega
        · refine Or.inl ⟨?_, ?_⟩
          · rw [hmapne _ ht2]
            exact hA
          · rw [hmapne _ ht2, hmapne _ hg]
            exact hB
      · refine Or.inr (Or.inl ⟨e, ?_, hex, hey, ?_⟩)
        · rw [hq2]
          exact List.mem_append_left _ heQ
        · rw [hmapne _ hg]
          exact hesc
      · rcases List.mem_cons.mp hd2 with hoeq | hmemr
        · subst hoeq
          subst ha
          subst hb2
          refine Or.inl ⟨?_, ?_⟩
          · rw [hmT]
            dsimp only
            omega
          · rw [hmT, hmapf, hctx.fEq]
            dsimp only
            omega
        · exact Or.inr (Or.inr ⟨ha, hb2, hc2, hmemr⟩)

theorem relax_preserve {env : SearchEnv} (hok : EnvOK env) {sx sy : Int}
    (hstart : inBounds env sx sy) {node : PathfindingNode} {fscore : Int}
    {o : NeighborOffset} (ho : o ∈ env.offsets) {rem : List NeighborOffset}
    {s : SearchState}
    (hinv : SearchInv env sx sy (pendFor node fscore (o :: rem)) s)
    (hctx : StepCtx env node fscore s) :
    SearchInv env sx sy (pendFor node fscore rem)
      (relaxNeighbor env node (env.sdfCells (idxOf env node.x node.y))
        (maxDistAt env node.x node.y) s o) ∧
    StepCtx env node fscore
      (relaxNeighbor env node (env.sdfCells (idxOf env node.x node.y))
        (maxDistAt env node.x node.y) s o) := by
  by_cases hallow : allowedMove env o node.x node.y
  · by_cases hup : (s.map (idxOf env (node.x + o.x) (node.y + o.y))).score = 0 ∨
        node.score + moveCost env o node.x node.y <
          (s.map (idxOf env (node.x + o.x) (node.y + o.y))).score
    · rw [relaxNeighbor_update rfl rfl hallow hup]
      exact relaxPush_preserve hok hstart ho hinv hctx hallow hup
    · rw [relaxNeighbor_no_update rfl rfl hallow hup]
      refine ⟨SearchInv_convert hinv ?_, hctx⟩
      rintro fx fy o2 ho2 hal2 hvis hovf ⟨ha, hb, hc, hd⟩
      rcases List.mem_cons.mp hd with hoeq | hmem
      · subst hoeq
        subst ha
        subst hb
        push_neg at hup
        refine Or.inl ⟨?_, ?_⟩
        · have htB : inBounds env (node.x + o2.x) (node.y + o2.y) := hal2.2.2.1
          rcases hinv.zeroOne _ _ htB with h0 | h1
          · exact absurd h0 hup.1
          · exact h1
        · rw [hctx.fEq]
          have := hup.2
          omega
      · exact Or.inr (Or.inr ⟨ha, hb, hc, hmem⟩)
  · rw [relaxNeighbor_not_allowed rfl hallow]
    refine ⟨SearchInv_convert hinv ?_, hctx⟩
    rintro fx fy o2 ho2 hal2 hvis hovf ⟨ha, hb, hc, hd⟩
    rcases List.mem_cons.mp hd with hoeq | hmem
    · subst hoeq
      subst ha
      subst hb
      exact absurd hal2 hallow
    · exact Or.inr (Or.inr ⟨ha, hb, hc, hmem⟩)

theorem relax_fold {env : SearchEnv} (hok : EnvOK env) {sx sy : Int}
    (hstart : inBounds env sx sy) {node : PathfindingNode} {fscore : Int} :
    ∀ (l : List NeighborOffset), (∀ o ∈ l, o ∈ env.offsets) → ∀ (s : SearchState),
    SearchInv env sx sy (pendFor node fscore l) s → StepCtx env node fscore s →
    SearchInv env sx sy (pendFor node fscore [])
      (l.foldl (relaxNeighbor env node (env.sdfCells (idxOf env node.x node.y))
        (maxDistAt env node.x node.y)) s) ∧
    StepCtx env node fscore
      (l.foldl (relaxNeighbor env node (env.sdfCells (idxOf env node.x node.y))
        (maxDistAt env node.x node.y)) s) := by
  intro l
  induction l with
  | nil => exact fun _ s h1 h2 => ⟨h1, h2⟩
  | cons o rest ih =>
    intro hl s h1 h2
    rw [List.foldl_cons]
    obtain ⟨h3, h4⟩ := relax_preserve hok hstart (hl o (List.mem_cons_self _ _)) h1 h2
    exact ih (fun q hq => hl q (List.mem_cons_of_mem _ hq)) _ h3 h4

set_option maxHeartbeats 1000000 in
theorem searchStep_preserve {env : SearchEnv} (hok : EnvOK env) {sx sy : Int}
    (hstart : inBounds env sx sy) {s : SearchState}
    (hinv : SearchInv env sx sy noPend s) :
    SearchInv env sx sy noPend (searchStep env s) := by
  by_cases hq : s.queue = []
  · unfold searchStep
    rw [if_pos hq]
    exact hinv
  · rw [searchStep_eq hq]
    have hiLt : lowestScoreIndex s.queue < s.queue.length := lowestScoreIndex_lt hq
    have hnmem : s.queue.getD (lowestScoreIndex s.queue) noNode ∈ s.queue := getD_mem hiLt
    obtain ⟨hnB, hn1, hnm1, hnmle⟩ := hinv.qMem _ hnmem
    have hperm := pop_perm hiLt
    have hsubE : ∀ e ∈ s.queue.eraseIdx (lowestScoreIndex s.queue), e ∈ s.queue :=
      fun e he => hperm.subset (List.mem_cons_of_mem _ he)
    have hsplit : ∀ e ∈ s.queue, e = s.queue.getD (lowestScoreIndex s.queue) noNode ∨
        e ∈ s.queue.eraseIdx (lowestScoreIndex s.queue) := by
      intro e he
      rcases List.mem_cons.mp (hperm.symm.subset he) with h | h
      · exact Or.inl h
      · exact Or.inr h
    have hctx1 : StepCtx env (s.queue.getD (lowestScoreIndex s.queue) noNode)
        ((s.map (idxOf env (s.queue.getD (lowestScoreIndex s.queue) noNode).x
          (s.queue.getD (lowestScoreIndex s.queue) noNode).y)).score)
        { map := s.map, queue := s.queue.eraseIdx (lowestScoreIndex s.queue),
          overflow := s.overflow,
          popped := s.popped ++ [(s.queue.getD (lowestScoreIndex s.queue) noNode).score] } :=
      ⟨hnB, hn1, rfl, hnmle, hnm1, List.getLast?_concat _⟩
    have hinv1 : SearchInv env sx sy
        (pendFor (s.queue.getD (lowestScoreIndex s.queue) noNode)
          ((s.map (idxOf env (s.queue.getD (lowestScoreIndex s.queue) noNode).x
            (s.queue.getD (lowestScoreIndex s.queue) noNode).y)).score) env.offsets)
        { map := s.map, queue := s.queue.eraseIdx (lowestScoreIndex s.queue),
          overflow := s.overflow,
          popped := s.popped ++ [(s.queue.getD (lowestScoreIndex s.queue) noNode).score] } := by
      refine ⟨?_, ?_, hinv.seed, hinv.zeroOne, hinv.coords, hinv.reach, hinv.sdfAbove,
        ?_, ?_, ?_, ?_⟩
      · show (s.queue.eraseIdx (lowestScoreIndex s.queue)).length ≤ (env.W * env.H).toNat
        rw [List.length_eraseIdx]
        have := hinv.qLen
        split <;> omega
      · exact fun e he => hinv.qMem e (hsubE e he)
      · intro x y hb hs2 hns
        obtain ⟨o, ho, e1, e2, e3, e4, e5, e6, e7⟩ := hinv.pred x y hb hs2 hns
        refine ⟨o, ho, e1, e2, e3, e4, e5, e6, ?_⟩
        intro hovf
        rcases e7 hovf with heq | ⟨e, heQ, hex, hey, hesc⟩ | hp
        · exact Or.inl heq
        · rcases hsplit e heQ with hen | her
          · refine Or.inr (Or.inr ⟨?_, ?_, ?_, ho⟩)
            · rw [← hen, hex]
            · rw [← hen, hey]
            · rw [← hen, hex, hey]
              exact hesc
          · exact Or.inr (Or.inl ⟨e, her, hex, hey, hesc⟩)
        · exact absurd hp (fun h => h)
      · intro hovf fx fy hb hs2 o ho hal
        rcases hinv.closure hovf fx fy hb hs2 o ho hal with hc | ⟨e, heQ, hex, hey, hesc⟩ | hp
        · exact Or.inl hc
        · rcases hsplit e heQ with hen | her
          · refine Or.inr (Or.inr ⟨?_, ?_, ?_, ho⟩)
            · rw [← hen, hex]
            · rw [← hen, hey]
            · rw [← hen, hex, hey]
              exact hesc
          · exact Or.inr (Or.inl ⟨e, her, hex, hey, hesc⟩)
        · exact absurd hp (fun h => h)
      · show List.Chain' (· ≤ ·) (s.popped ++
            [(s.queue.getD (lowestScoreIndex s.queue) noNode).score])
        rw [List.chain'_append]
        refine ⟨hinv.sorted.1, List.chain'_singleton _, ?_⟩
        intro l hl y hy
        rw [List.head?_cons, Option.mem_some_iff] at hy
        subst hy
        exact hinv.sorted.2 l (by rwa [Option.mem_def] at hl) _ hnmem
      · intro l hl e he
        rw [List.getLast?_concat] at hl
        have hle : l = (s.queue.getD (lowestScoreIndex s.queue) noNode).score :=
          (Option.some.inj hl).symm
        subst hle
        exact lowestScoreIndex_min e (hsubE e he)
    obtain ⟨h3, _⟩ := relax_fold hok hstart env.offsets (fun o ho => ho) _ hinv1 hctx1
    refine SearchInv_convert h3 ?_
    rintro fx fy o _ _ _ _ ⟨_, _, _, hmem⟩
    exact absurd hmem (List.not_mem_nil o)

/-! ### The invariant holds initially and along the run -/

theorem startState_inv {env : SearchEnv} (hok : EnvOK env) {sx sy : Int}
    (hstart : inBounds env sx sy) (prior : Int → PathfindingNode) :
    SearchInv env sx sy noPend (startState env sx sy prior) := by
  have hWH : 1 ≤ (env.W * env.H).toNat := by
    have h1 : 1 ≤ env.W * env.H := mul_pos hok.hW hok.hH
    omega
  have hseed : (startState env sx sy prior).map (idxOf env sx sy) =
      ⟨sx, sy, -1, -1, 1⟩ := by
    unfold startState idxOf
    dsimp only
    rw [if_pos rfl]
  have hscore1 : ((startState env sx sy prior).map (idxOf env sx sy)).score = 1 := by
    rw [hseed]
  have hother : ∀ x y, inBounds env x y → ¬(x = sx ∧ y = sy) →
      ((startState env sx sy prior).map (idxOf env x y)).score = 0 := by
    intro x y hb hns
    unfold startState
    dsimp only
    rw [if_neg]
    intro he
    exact hns (idxOf_inj hb hstart he)
  refine ⟨?_, ?_, hseed, ?_, ?_, ?_, ?_, ?_, ?_, ?_⟩
  · show 1 ≤ (env.W * env.H).toNat
    exact hWH
  · intro e he
    rw [List.mem_singleton.mp he]
    refine ⟨hstart, by norm_num, by rw [hscore1], by rw [hscore1]⟩
  · intro x y hb
    by_cases hxy : x = sx ∧ y = sy
    · right
      have he : idxOf env x y = idxOf env sx sy := by
        unfold idxOf
        rw [hxy.1, hxy.2]
      rw [he, hscore1]
    · left
      exact hother x y hb hxy
  · intro x y hb hs
    by_cases hxy : x = sx ∧ y = sy
    · have he : idxOf env x y = idxOf env sx sy := by
        unfold idxOf
        rw [hxy.1, hxy.2]
      rw [he, hseed]
      exact ⟨hxy.1.symm, hxy.2.symm⟩
    · rw [hother x y hb hxy] at hs
      omega
  · intro x y hb hs
    by_cases hxy : x = sx ∧ y = sy
    · rw [hxy.1, hxy.2]
      exact Reach.refl
    · rw [hother x y hb hxy] at hs
      omega
  · intro x y hb hs hns
    rw [hother x y hb hns] at hs
    omega
  · intro x y hb hs hns
    rw [hother x y hb hns] at hs
    omega
  · intro hovf fx fy hb hs o ho hal
    by_cases hxy : fx = sx ∧ fy = sy
    · refine Or.inr (Or.inl ⟨⟨sx, sy, sx, sy, 1⟩, ?_, hxy.1.symm, hxy.2.symm, ?_⟩)
      · exact List.mem_singleton.mpr rfl
      · have he : idxOf env fx fy = idxOf env sx sy := by
          unfold idxOf
          rw [hxy.1, hxy.2]
        rw [he, hscore1]
    · rw [hother fx fy hb hxy] at hs
      omega
  · refine ⟨List.chain'_nil, ?_⟩
    intro l hl
    have hpn : (startState env sx sy prior).popped = [] := rfl
    rw [hpn] at hl
    simp at hl

theorem runSearch_preserve {env : SearchEnv} (hok : EnvOK env) {sx sy : Int}
    (hstart : inBounds env sx sy) :
    ∀ (n : Nat) (s : SearchState), SearchInv env sx sy noPend s →
    SearchInv env sx sy noPend (runSearch env n s) := by
  intro n
  induction n with
  | zero => exact fun s h => h
  | succ m ih =>
    intro s h
    unfold runSearch
    split
    · exact h
    · exact ih _ (searchStep_preserve hok hstart h)

theorem runSearch_empty {env : SearchEnv} {s : SearchState} (h : s.queue = [])
    (n : Nat) : runSearch env n s = s := by
  cases n with
  | zero => rfl
  | succ m =>
    unfold runSearch
    rw [if_pos h]

theorem runSearch_add (env : SearchEnv) (m n : Nat) (s : SearchState) :
    runSearch env (m + n) s = runSearch env n (runSearch env m s) := by
  induction m generalizing s with
  | zero =>
    rw [Nat.zero_add]
    rfl
  | succ k ih =>
    by_cases hq : s.queue = []
    · rw [runSearch_empty hq, runSearch_empty hq, runSearch_empty hq]
    · have h1 : k + 1 + n = (k + n) + 1 := by omega
      rw [h1]
      show (if s.queue = [] then s else runSearch env (k + n) (searchStep env s)) = _
      rw [if_neg hq]
      show runSearch env (k + n) (searchStep env s) =
        runSearch env n (if s.queue = [] then s else runSearch env k (searchStep env s))
      rw [if_neg hq]
      exact ih (searchStep env s)

theorem runSearch_stable {env : SearchEnv} {s : SearchState} {n m : Nat}
    (hdone : (runSearch env n s).queue = []) (hnm : n ≤ m) :
    runSearch env m s = runSearch env n s := by
  have h1 : m = n + (m - n) := by omega
  rw [h1, runSearch_add]
  exact runSearch_empty hdone _

/-! ### Consequences at quiescence -/

theorem final_closure {env : SearchEnv} {sx sy : Int} {s : SearchState}
    (hinv : SearchInv env sx sy noPend s) (hq : s.queue = [])
    (hovf : s.overflow = false) {fx fy : Int} (hb : inBounds env fx fy)
    (hs : 1 ≤ (s.map (idxOf env fx fy)).score) {o : NeighborOffset}
    (ho : o ∈ env.offsets) (hal : allowedMove env o fx fy) :
    1 ≤ (s.map (idxOf env (fx + o.x) (fy + o.y))).score ∧
    (s.map (idxOf env (fx + o.x) (fy + o.y))).score ≤
      (s.map (idxOf env fx fy)).score + moveCost env o fx fy := by
  rcases hinv.closure hovf fx fy hb hs o ho hal with hc | ⟨e, heQ, _⟩ | hp
  · exact hc
  · rw [hq] at heQ
    exact absurd heQ (List.not_mem_nil e)
  · exact absurd hp (fun h => h)

theorem final_pred {env : SearchEnv} {sx sy : Int} {s : SearchState}
    (hinv : SearchInv env sx sy noPend s) (hq : s.queue = [])
    (hovf : s.overflow = false) {x y : Int} (hb : inBounds env x y)
    (hs : 1 ≤ (s.map (idxOf env x y)).score) (hns : ¬(x = sx ∧ y = sy)) :
    ∃ o ∈ env.offsets,
      (s.map (idxOf env x y)).fromX + o.x = x ∧ (s.map (idxOf env x y)).fromY + o.y = y ∧
      allowedMove env o (s.map (idxOf env x y)).fromX (s.map (idxOf env x y)).fromY ∧
      inBounds env (s.map (idxOf env x y)).fromX (s.map (idxOf env x y)).fromY ∧
      1 ≤ (s.map (idxOf env (s.map (idxOf env x y)).fromX
        (s.map (idxOf env x y)).fromY)).score ∧
      (s.map (idxOf env x y)).score =
        (s.map (idxOf env (s.map (idxOf env x y)).fromX
          (s.map (idxOf env x y)).fromY)).score +
        moveCost env o (s.map (idxOf env x y)).fromX (s.map (idxOf env x y)).fromY := by
  obtain ⟨o, ho, e1, e2, e3, e4, e5, e6, e7⟩ := hinv.pred x y hb hs hns
  refine ⟨o, ho, e1, e2, e3, e4, e5, ?_⟩
  rcases e7 hovf with heq | ⟨e, heQ, _⟩ | hp
  · exact heq
  · rw [hq] at heQ
    exact absurd heQ (List.not_mem_nil e)
  · exact absurd hp (fun h => h)

theorem reach_visited {env : SearchEnv} {sx sy : Int} {s : SearchState}
    (hinv : SearchInv env sx sy noPend s) (hq : s.queue = [])
    (hovf : s.overflow = false) (hstart : inBounds env sx sy) :
    ∀ x y, Reach env sx sy x y →
      inBounds env x y ∧ 1 ≤ (s.map (idxOf env x y)).score := by
  intro x y hr
  induction hr with
  | refl =>
    refine ⟨hstart, ?_⟩
    rw [hinv.seed]
  | tail o ho hm h ihr =>
    obtain ⟨hb, hs2⟩ := ihr
    exact ⟨hm.2.2.1, (final_closure hinv hq hovf hb hs2 ho hm).1⟩

/-! ### The backwards walk reaches the start within the cell count -/

theorem length_filter_mono {α : Type} (l : List α) (p q : α → Bool)
    (h : ∀ a, p a = true → q a = true) :
    (l.filter p).length ≤ (l.filter q).length := by
  induction l with
  | nil => exact le_refl 0
  | cons a t ih =>
    by_cases hp : p a = true
    · rw [List.filter_cons_of_pos hp, List.filter_cons_of_pos (h a hp)]
      simpa using ih
    · rw [List.filter_cons_of_neg (by simpa using hp)]
      by_cases hq : q a = true
      · rw [List.filter_cons_of_pos hq]
        exact le_trans ih (by simp)
      · rw [List.filter_cons_of_neg (by simpa using hq)]
        exact ih

theorem length_filter_lt {α : Type} (l : List α) (p q : α → Bool)
    (h : ∀ a, p a = true → q a = true) {x : α} (hx : x ∈ l) (hqx : q x = true)
    (hpx : ¬ p x = true) :
    (l.filter p).length < (l.filter q).length := by
  induction l with
  | nil => cases hx
  | cons a t ih =>
    rcases List.mem_cons.mp hx with rfl | hxt
    · rw [List.filter_cons_of_neg (by simpa using hpx), List.filter_cons_of_pos hqx]
      have := length_filter_mono t p q h
      simp only [List.length_cons]
      omega
    · by_cases hp : p a = true
      · rw [List.filter_cons_of_pos hp, List.filter_cons_of_pos (h a hp)]
        simp only [List.length_cons]
        have := ih hxt
        omega
      · rw [List.filter_cons_of_neg (by simpa using hp)]
        by_cases hq : q a = true
        · rw [List.filter_cons_of_pos hq]
          have := ih hxt
          simp only [List.length_cons]
          omega
        · rw [List.filter_cons_of_neg (by simpa using hq)]
          exact ih hxt

theorem intRange_length (a b : Int) : (intRange a b).length = (b + 1 - a).toNat := by
  unfold intRange
  rw [List.length_map, List.length_range]

theorem sum_map_constN {α : Type} (l : List α) (c : Nat) :
    (l.map (fun _ => c)).sum = l.length * c := by
  induction l with
  | nil => simp
  | cons a t ih =>
    simp only [List.map_cons, List.sum_cons, List.length_cons, ih]
    ring

theorem cellPairs_length {W H : Int} (hW : 0 < W) (hH : 0 < H) :
    (cellPairs W H).length = (W * H).toNat := by
  unfold cellPairs
  rw [List.length_flatMap]
  have hcongr : List.map (List.length ∘ fun y => (intRange 0 (W - 1)).map (fun x => (x, y)))
      (intRange 0 (H - 1)) = List.map (fun _ => W.toNat) (intRange 0 (H - 1)) := by
    apply List.map_congr_left
    intro a _
    show ((intRange 0 (W - 1)).map (fun x => (x, a))).length = W.toNat
    rw [List.length_map, intRange_length]
    omega
  rw [hcongr, sum_map_constN, intRange_length]
  have h1 : ((W.toNat : Int)) = W := Int.toNat_of_nonneg (by omega)
  have h2 : ((H.toNat : Int)) = H := Int.toNat_of_nonneg (by omega)
  have h4 : (H - 1 + 1 - 0).toNat = H.toNat := by omega
  rw [h4]
  have h5 : ((H.toNat * W.toNat : Nat) : Int) = (((W * H).toNat : Nat) : Int) := by
    push_cast
    rw [Int.toNat_of_nonneg (mul_nonneg (by omega) (by omega)), h1, h2]
    ring
  exact_mod_cast h5

theorem countLower_le {env : SearchEnv} (hok : EnvOK env) (m : Int → PathfindingNode)
    (v : Int) : countLower env m v ≤ (env.W * env.H).toNat := by
  unfold countLower
  rw [← cellPairs_length hok.hW hok.hH]
  exact List.length_filter_le _ _

theorem walkBack_succ_pos {env : SearchEnv} {m : Int → PathfindingNode} {sx sy : Int}
    {fuel : Nat} {x y : Int}
    (hc : 0 < (m (idxOf env x y)).score ∧ (x ≠ sx ∨ y ≠ sy)) :
    walkBack env m sx sy (fuel + 1) x y =
      m (idxOf env x y) ::
        walkBack env m sx sy fuel (m (idxOf env x y)).fromX (m (idxOf env x y)).fromY := by
  have hc2 : 0 < (m (y * env.W + x)).score ∧ (x ≠ sx ∨ y ≠ sy) := hc
  conv_lhs => rw [walkBack]
  rw [if_pos hc2]
  rfl

theorem walkBack_succ_neg {env : SearchEnv} {m : Int → PathfindingNode} {sx sy : Int}
    {fuel : Nat} {x y : Int}
    (hc : ¬(0 < (m (idxOf env x y)).score ∧ (x ≠ sx ∨ y ≠ sy))) :
    walkBack env m sx sy (fuel + 1) x y = [] := by
  have hc2 : ¬(0 < (m (y * env.W + x)).score ∧ (x ≠ sx ∨ y ≠ sy)) := hc
  conv_lhs => rw [walkBack]
  rw [if_neg hc2]

theorem walk_spec {env : SearchEnv} (hok : EnvOK env) {sx sy : Int} {s : SearchState}
    (hinv : SearchInv env sx sy noPend s) (hq : s.queue = [])
    (hovf : s.overflow = false) :
    ∀ (fuel : Nat) (x y : Int), inBounds env x y →
    1 ≤ (s.map (idxOf env x y)).score →
    countLower env s.map ((s.map (idxOf env x y)).score) ≤ fuel →
    WalkChain env s.map sx sy (walkBack env s.map sx sy fuel x y) x y := by
  intro fuel
  induction fuel with
  | zero =>
    intro x y hb hs hcnt
    exfalso
    have hmem : (x, y) ∈ (cellPairs env.W env.H).filter (fun p =>
        decide (1 ≤ (s.map (idxOf env p.1 p.2)).score ∧
          (s.map (idxOf env p.1 p.2)).score ≤ (s.map (idxOf env x y)).score)) := by
      rw [List.mem_filter]
      refine ⟨mem_cellPairs.mpr ⟨hb.1, by have := hb.2.1; omega, hb.2.2.1,
        by have := hb.2.2.2; omega⟩, ?_⟩
      rw [decide_eq_true_eq]
      exact ⟨hs, le_refl _⟩
    have hpos : 0 < countLower env s.map ((s.map (idxOf env x y)).score) := by
      unfold countLower
      exact List.length_pos.mpr (List.ne_nil_of_mem hmem)
    omega
  | succ n ih =>
    intro x y hb hs hcnt
    by_cases hxy : x = sx ∧ y = sy
    · rw [walkBack_succ_neg (by
        rintro ⟨_, h2⟩
        rcases h2 with h2 | h2
        · exact h2 hxy.1
        · exact h2 hxy.2)]
      exact WalkChain.stop x y hxy.1 hxy.2
    · have hcond : 0 < (s.map (idxOf env x y)).score ∧ (x ≠ sx ∨ y ≠ sy) := by
        refine ⟨by omega, ?_⟩
        by_cases h1 : x = sx
        · exact Or.inr (fun h2 => hxy ⟨h1, h2⟩)
        · exact Or.inl h1
      rw [walkBack_succ_pos hcond]
      obtain ⟨o, ho, e1, e2, e3, e4, e5, e6⟩ := final_pred hinv hq hovf hb hs hxy
      refine WalkChain.step x y _ hxy ?_
      have hcost := (moveCost_ge hok ho (s.map (idxOf env x y)).fromX
        (s.map (idxOf env x y)).fromY).2
      have hlt : (s.map (idxOf env (s.map (idxOf env x y)).fromX
          (s.map (idxOf env x y)).fromY)).score < (s.map (idxOf env x y)).score := by
        omega
      have hmono : countLower env s.map ((s.map (idxOf env (s.map (idxOf env x y)).fromX
          (s.map (idxOf env x y)).fromY)).score) <
          countLower env s.map ((s.map (idxOf env x y)).score) := by
        unfold countLower
        have hxmem : ((x, y) : Int × Int) ∈ cellPairs env.W env.H :=
          mem_cellPairs.mpr ⟨hb.1, by have := hb.2.1; omega, hb.2.2.1,
            by have := hb.2.2.2; omega⟩
        refine length_filter_lt _ _ _ ?_ hxmem ?_ ?_
        · intro a
          rw [decide_eq_true_eq, decide_eq_true_eq]
          rintro ⟨h1, h2⟩
          exact ⟨h1, by omega⟩
        · rw [decide_eq_true_eq]
          exact ⟨hs, le_refl _⟩
        · rw [decide_eq_true_eq]
          dsimp only
          rintro ⟨_, h2⟩
          omega
      exact ih _ _ e4 e5 (by omega)

/-! ### Properties of the reconstructed chain -/

theorem walkchain_head {env : SearchEnv} {m : Int → PathfindingNode} {sx sy : Int}
    {l : List PathfindingNode} {x y : Int} (h : WalkChain env m sx sy l x y) :
    (l ++ [m (idxOf env sx sy)]).head? = some (m (idxOf env x y)) := by
  cases h with
  | stop x y hx hy =>
    rw [hx, hy]
    rfl
  | step x y l hns h => rfl

theorem walkBack_at_start {env : SearchEnv} {m : Int → PathfindingNode} {sx sy : Int}
    (fuel : Nat) : walkBack env m sx sy fuel sx sy = [] := by
  cases fuel with
  | zero => rfl
  | succ n =>
    apply walkBack_succ_neg
    rintro ⟨_, h⟩
    rcases h with h | h <;> exact h rfl

theorem walkBack_elems {env : SearchEnv} {sx sy : Int} {s : SearchState}
    (hinv : SearchInv env sx sy noPend s) :
    ∀ (fuel : Nat) (x y : Int), inBounds env x y →
    ∀ e ∈ walkBack env s.map sx sy fuel x y, ∃ cx cy, inBounds env cx cy ∧
      1 ≤ (s.map (idxOf env cx cy)).score ∧ ¬(cx = sx ∧ cy = sy) ∧
      e = s.map (idxOf env cx cy) := by
  intro fuel
  induction fuel with
  | zero =>
    intro x y hb e he
    cases he
  | succ n ih =>
    intro x y hb e he
    by_cases hcond : 0 < (s.map (idxOf env x y)).score ∧ (x ≠ sx ∨ y ≠ sy)
    · rw [walkBack_succ_pos hcond] at he
      have hns : ¬(x = sx ∧ y = sy) := by
        rcases hcond.2 with h | h
        · exact fun hc => h hc.1
        · exact fun hc => h hc.2
      have hs1 : 1 ≤ (s.map (idxOf env x y)).score := by
        have := hcond.1
        omega
      rcases List.mem_cons.mp he with rfl | htail
      · exact ⟨x, y, hb, hs1, hns, rfl⟩
      · obtain ⟨o, ho, e1, e2, e3, e4, e5, e6, e7⟩ := hinv.pred x y hb hs1 hns
        exact ih _ _ e4 e htail
    · rw [walkBack_succ_neg hcond] at he
      cases he

theorem recomp_eq_moveCost {env : SearchEnv} (hok : EnvOK env) {o : NeighborOffset}
    (ho : o ∈ env.offsets) {a b : PathfindingNode} {fx fy : Int}
    (hax : a.x = fx + o.x) (hay : a.y = fy + o.y) (hbx : b.x = fx) (hby : b.y = fy) :
    recompCost env a b = moveCost env o fx fy := by
  unfold recompCost moveCost
  have hdx : a.x - b.x = o.x := by omega
  have hdy : a.y - b.y = o.y := by omega
  rw [hdx, hdy, ← hok.offsetsDist o ho, hax, hay, hbx, hby]

theorem walkchain_score {env : SearchEnv} (hok : EnvOK env) {sx sy : Int}
    {s : SearchState} (hinv : SearchInv env sx sy noPend s) (hq : s.queue = [])
    (hovf : s.overflow = false) :
    ∀ {l : List PathfindingNode} {x y : Int}, WalkChain env s.map sx sy l x y →
    inBounds env x y → 1 ≤ (s.map (idxOf env x y)).score →
    (s.map (idxOf env x y)).score =
      1 + pathCostSum env (l ++ [s.map (idxOf env sx sy)]) := by
  intro l x y hch
  induction hch with
  | stop x y hx hy =>
    intro hb hs
    rw [hx, hy]
    show (s.map (idxOf env sx sy)).score = 1 + pathCostSum env [s.map (idxOf env sx sy)]
    rw [hinv.seed]
    rfl
  | step x y l hns hch ih =>
    intro hb hs
    obtain ⟨o, ho, e1, e2, e3, e4, e5, e6⟩ := final_pred hinv hq hovf hb hs hns
    have ihv := ih e4 e5
    obtain ⟨b, t, hbt⟩ : ∃ b t, l ++ [s.map (idxOf env sx sy)] = b :: t := by
      cases l with
      | nil => exact ⟨s.map (idxOf env sx sy), [], rfl⟩
      | cons a t2 => exact ⟨a, t2 ++ [s.map (idxOf env sx sy)], rfl⟩
    have hhead := walkchain_head hch
    rw [hbt] at hhead ihv
    have hbval : b = s.map (idxOf env (s.map (idxOf env x y)).fromX
        (s.map (idxOf env x y)).fromY) := by
      rw [List.head?_cons] at hhead
      exact Option.some.inj hhead
    have hsum : pathCostSum env (s.map (idxOf env x y) :: b :: t) =
        recompCost env (s.map (idxOf env x y)) b + pathCostSum env (b :: t) := rfl
    rw [List.cons_append, hbt, hsum]
    have hcoordsA := hinv.coords x y hb hs
    have hcoordsB := hinv.coords _ _ e4 e5
    have hrc : recompCost env (s.map (idxOf env x y)) b =
        moveCost env o (s.map (idxOf env x y)).fromX (s.map (idxOf env x y)).fromY := by
      rw [hbval]
      exact recomp_eq_moveCost hok ho (by omega) (by omega) hcoordsB.1 hcoordsB.2
    rw [hrc]
    omega

theorem walkchain_unit {env : SearchEnv} (hok : EnvOK env) {sx sy : Int}
    {s : SearchState} (hinv : SearchInv env sx sy noPend s) (hq : s.queue = [])
    (hovf : s.overflow = false) (hjmp : env.enableJumping = false) :
    ∀ {l : List PathfindingNode} {x y : Int}, WalkChain env s.map sx sy l x y →
    inBounds env x y → 1 ≤ (s.map (idxOf env x y)).score →
    List.Chain' (fun a b => (a.x - b.x).natAbs + (a.y - b.y).natAbs = 1)
      (l ++ [s.map (idxOf env sx sy)]) := by
  intro l x y hch
  induction hch with
  | stop x y hx hy =>
    intro _ _
    exact List.chain'_singleton _
  | step x y l hns hch ih =>
    intro hb hs
    obtain ⟨o, ho, e1, e2, e3, e4, e5, e6⟩ := final_pred hinv hq hovf hb hs hns
    rw [List.cons_append, List.chain'_cons']
    refine ⟨?_, ih e4 e5⟩
    intro bb hbb
    rw [walkchain_head hch, Option.mem_some_iff] at hbb
    subst hbb
    have hcoordsA := hinv.coords x y hb hs
    have hcoordsB := hinv.coords _ _ e4 e5
    have hd1 : o.distance = 1 := by
      have h1 := hok.offsetsPos o ho
      rcases e3.2.1 with hej | hle
      · rw [hjmp] at hej
        exact absurd hej (by norm_num)
      · omega
    have hunit := hok.offsetsUnit o ho hd1
    have hdx : (s.map (idxOf env x y)).x -
        (s.map (idxOf env (s.map (idxOf env x y)).fromX
          (s.map (idxOf env x y)).fromY)).x = o.x := by
      rw [hcoordsA.1, hcoordsB.1]
      omega
    have hdy : (s.map (idxOf env x y)).y -
        (s.map (idxOf env (s.map (idxOf env x y)).fromX
          (s.map (idxOf env x y)).fromY)).y = o.y := by
      rw [hcoordsA.2, hcoordsB.2]
      omega
    rw [hdx, hdy]
    exact hunit

/-! ### A termination measure for the main loop -/

theorem sum_map_le_pointwise (l : List (Int × Int)) (f g : Int × Int → Nat)
    (hle : ∀ q ∈ l, f q ≤ g q) : (l.map f).sum ≤ (l.map g).sum := by
  induction l with
  | nil => exact le_refl 0
  | cons a t ih =>
    rw [List.map_cons, List.map_cons, List.sum_cons, List.sum_cons]
    have h1 := hle a (List.mem_cons_self a t)
    have h2 := ih (fun q hq => hle q (List.mem_cons_of_mem _ hq))
    omega

theorem sum_map_lt_pointwise {l : List (Int × Int)} (f g : Int × Int → Nat)
    (hle : ∀ q ∈ l, f q ≤ g q) {p : Int × Int} (hmem : p ∈ l) (hlt : f p < g p) :
    (l.map f).sum < (l.map g).sum := by
  induction l with
  | nil => cases hmem
  | cons a t ih =>
    rw [List.map_cons, List.map_cons, List.sum_cons, List.sum_cons]
    rcases List.mem_cons.mp hmem with rfl | hm
    · have h2 := sum_map_le_pointwise t f g (fun q hq => hle q (List.mem_cons_of_mem _ hq))
      omega
    · have h1 := hle a (List.mem_cons_self a t)
      have h2 := ih (fun q hq => hle q (List.mem_cons_of_mem _ hq)) hm
      omega

theorem measureLt_trans {env : SearchEnv} {m1 m2 m3 : Int → PathfindingNode}
    (h1 : measureLt env m1 m2) (h2 : measureLt env m2 m3) : measureLt env m1 m3 := by
  unfold measureLt at *
  omega

theorem measure_update_fresh {env : SearchEnv} {m : Int → PathfindingNode}
    {x y : Int} (hb : inBounds env x y) {nn : PathfindingNode}
    (hold : (m (idxOf env x y)).score = 0) (hnew : 1 ≤ nn.score) :
    countZero env (updN m (idxOf env x y) nn) < countZero env m := by
  unfold countZero
  have hmem : ((x, y) : Int × Int) ∈ cellPairs env.W env.H :=
    mem_cellPairs.mpr ⟨hb.1, by have := hb.2.1; omega, hb.2.2.1,
      by have := hb.2.2.2; omega⟩
  refine length_filter_lt _ _ _ ?_ hmem ?_ ?_
  · intro a
    rw [decide_eq_true_eq, decide_eq_true_eq]
    intro ha
    by_cases hidx : idxOf env a.1 a.2 = idxOf env x y
    · rw [hidx, updN_at] at ha
      omega
    · rwa [updN_ne m nn hidx] at ha
  · rw [decide_eq_true_eq]
    exact hold
  · rw [decide_eq_true_eq]
    dsimp only
    rw [updN_at]
    omega

theorem measure_update_revisit {env : SearchEnv} {m : Int → PathfindingNode}
    {x y : Int} (hb : inBounds env x y) {nn : PathfindingNode}
    (hold : 1 ≤ (m (idxOf env x y)).score) (hnew1 : 1 ≤ nn.score)
    (hlt : nn.score < (m (idxOf env x y)).score) :
    countZero env (updN m (idxOf env x y) nn) = countZero env m ∧
    scoreSum env (updN m (idxOf env x y) nn) < scoreSum env m := by
  have hmem : ((x, y) : Int × Int) ∈ cellPairs env.W env.H :=
    mem_cellPairs.mpr ⟨hb.1, by have := hb.2.1; omega, hb.2.2.1,
      by have := hb.2.2.2; omega⟩
  constructor
  · unfold countZero
    congr 1
    apply List.filter_congr
    intro a ha
    by_cases hidx : idxOf env a.1 a.2 = idxOf env x y
    · rw [hidx, updN_at]
      apply decide_eq_decide.mpr
      constructor
      · intro h
        omega
      · intro h
        omega
    · rw [updN_ne m nn hidx]
  · unfold scoreSum
    refine sum_map_lt_pointwise _ _ ?_ hmem ?_
    · intro q hq
      by_cases hidx : idxOf env q.1 q.2 = idxOf env x y
      · rw [hidx, updN_at]
        omega
      · rw [updN_ne m nn hidx]
    · dsimp only
      rw [updN_at]
      omega

theorem relax_measure {env : SearchEnv} (hok : EnvOK env) {node : PathfindingNode}
    (hnode1 : 1 ≤ node.score) (s : SearchState) {o : NeighborOffset}
    (ho : o ∈ env.offsets) (hzo : zeroOneMap env s.map) :
    relaxNeighbor env node (env.sdfCells (idxOf env node.x node.y))
      (maxDistAt env node.x node.y) s o = s ∨
    (measureLt env (relaxNeighbor env node (env.sdfCells (idxOf env node.x node.y))
        (maxDistAt env node.x node.y) s o).map s.map ∧
      zeroOneMap env (relaxNeighbor env node (env.sdfCells (idxOf env node.x node.y))
        (maxDistAt env node.x node.y) s o).map) := by
  by_cases hallow : allowedMove env o node.x node.y
  · by_cases hup : (s.map (idxOf env (node.x + o.x) (node.y + o.y))).score = 0 ∨
        node.score + moveCost env o node.x node.y <
          (s.map (idxOf env (node.x + o.x) (node.y + o.y))).score
    · right
      rw [relaxNeighbor_update rfl rfl hallow hup, relaxPush_map]
      have htB : inBounds env (node.x + o.x) (node.y + o.y) := hallow.2.2.1
      have hmc := (moveCost_ge hok ho node.x node.y).2
      have hns : 1 ≤ (⟨node.x + o.x, node.y + o.y, node.x, node.y,
          node.score + moveCost env o node.x node.y⟩ : PathfindingNode).score := by
        dsimp only
        omega
      constructor
      · rcases hzo _ _ htB with h0 | h1
        · exact Or.inl (measure_update_fresh htB h0 hns)
        · refine Or.inr (measure_update_revisit htB h1 hns ?_)
          dsimp only
          rcases hup with h | h
          · omega
          · exact h
      · intro x y hb
        by_cases hidx : idxOf env x y = idxOf env (node.x + o.x) (node.y + o.y)
        · rw [hidx, updN_at]
          right
          exact hns
        · rw [updN_ne _ _ hidx]
          exact hzo x y hb
    · exact Or.inl (relaxNeighbor_no_update rfl rfl hallow hup)
  · exact Or.inl (relaxNeighbor_not_allowed rfl hallow)

theorem fold_measure {env : SearchEnv} (hok : EnvOK env) {node : PathfindingNode}
    (hnode1 : 1 ≤ node.score) :
    ∀ (l : List NeighborOffset), (∀ o ∈ l, o ∈ env.offsets) → ∀ (s : SearchState),
    zeroOneMap env s.map →
    l.foldl (relaxNeighbor env node (env.sdfCells (idxOf env node.x node.y))
      (maxDistAt env node.x node.y)) s = s ∨
    (measureLt env (l.foldl (relaxNeighbor env node (env.sdfCells (idxOf env node.x node.y))
        (maxDistAt env node.x node.y)) s).map s.map ∧
      zeroOneMap env (l.foldl (relaxNeighbor env node
        (env.sdfCells (idxOf env node.x node.y))
        (maxDistAt env node.x node.y)) s).map) := by
  intro l
  induction l with
  | nil =>
    intro _ s _
    exact Or.inl rfl
  | cons o t ih =>
    intro hl s hzo
    rw [List.foldl_cons]
    rcases relax_measure hok hnode1 s (hl o (List.mem_cons_self _ _)) hzo with heq | ⟨hm, hz⟩
    · rw [heq]
      exact ih (fun q hq => hl q (List.mem_cons_of_mem _ hq)) s hzo
    · rcases ih (fun q hq => hl q (List.mem_cons_of_mem _ hq)) _ hz with heq2 | ⟨hm2, hz2⟩
      · rw [heq2]
        exact Or.inr ⟨hm, hz⟩
      · exact Or.inr ⟨measureLt_trans hm2 hm, hz2⟩

theorem searchStep_measure {env : SearchEnv} (hok : EnvOK env) {sx sy : Int}
    {s : SearchState} (hinv : SearchInv env sx sy noPend s) (hq : ¬ s.queue = []) :
    ((searchStep env s).map = s.map ∧ (searchStep env s).queue.length < s.queue.length) ∨
    measureLt env (searchStep env s).map s.map := by
  rw [searchStep_eq hq]
  have hiLt := lowestScoreIndex_lt hq
  have hmem := getD_mem hiLt
  obtain ⟨hnB, hn1, hxx, hyy⟩ := hinv.qMem _ hmem
  have hzo : zeroOneMap env s.map := fun x y hb => hinv.zeroOne x y hb
  rcases fold_measure hok hn1 env.offsets (fun o ho => ho)
      { map := s.map, queue := s.queue.eraseIdx (lowestScoreIndex s.queue),
        overflow := s.overflow,
        popped := s.popped ++ [(s.queue.getD (lowestScoreIndex s.queue) noNode).score] }
      hzo with heq | ⟨hm, hz⟩
  · rw [heq]
    left
    refine ⟨rfl, ?_⟩
    show (s.queue.eraseIdx (lowestScoreIndex s.queue)).length < s.queue.length
    rw [List.length_eraseIdx]
    split
    · omega
    · omega
  · exact Or.inr hm

theorem search_terminates {env : SearchEnv} (hok : EnvOK env) {sx sy : Int}
    (hstart : inBounds env sx sy) :
    ∀ (U T Q : Nat) (s : SearchState), SearchInv env sx sy noPend s →
    countZero env s.map = U → scoreSum env s.map = T → s.queue.length = Q →
    ∃ n, (runSearch env n s).queue = [] := by
  intro U
  induction U using Nat.strong_induction_on with
  | _ U ihU =>
  intro T
  induction T using Nat.strong_induction_on with
  | _ T ihT =>
  intro Q
  induction Q using Nat.strong_induction_on with
  | _ Q ihQ =>
  intro s hinv hU hT hQ
  by_cases hq : s.queue = []
  · exact ⟨0, hq⟩
  · have hinv2 := searchStep_preserve hok hstart hinv
    have hstep : ∀ n : Nat, runSearch env (n + 1) s = runSearch env n (searchStep env s) := by
      intro n
      show (if s.queue = [] then s else runSearch env n (searchStep env s)) = _
      rw [if_neg hq]
    rcases searchStep_measure hok hinv hq with ⟨hmap, hlen⟩ | hm
    · obtain ⟨n, hn⟩ := ihQ (searchStep env s).queue.length (by omega) (searchStep env s)
        hinv2 (by rw [hmap]; exact hU) (by rw [hmap]; exact hT) rfl
      exact ⟨n + 1, by rw [hstep n]; exact hn⟩
    · rcases hm with hlt | ⟨heq, hlt⟩
      · obtain ⟨n, hn⟩ := ihU (countZero env (searchStep env s).map) (by omega)
          (scoreSum env (searchStep env s).map) (searchStep env s).queue.length
          (searchStep env s) hinv2 rfl rfl rfl
        exact ⟨n + 1, by rw [hstep n]; exact hn⟩
      · obtain ⟨n, hn⟩ := ihT (scoreSum env (searchStep env s).map) (by omega)
          (searchStep env s).queue.length (searchStep env s) hinv2
          (by rw [heq]; exact hU) rfl rfl
        exact ⟨n + 1, by rw [hstep n]; exact hn⟩

theorem runSearch_completes {env : SearchEnv} (hok : EnvOK env) {sx sy : Int}
    (hstart : inBounds env sx sy) (prior : Int → PathfindingNode) :
    ∃ n, (runSearch env n (startState env sx sy prior)).queue = [] :=
  search_terminates hok hstart _ _ _ _ (startState_inv hok hstart prior) rfl rfl rfl

/-! ### Views of the whole search procedure -/

theorem FindPath_some {env : SearchEnv} {toX toY sx sy : Int}
    {prior : Int → PathfindingNode} {fuel : Nat} {s : SearchState}
    {p : List PathfindingNode}
    (h : FindPath env toX toY sx sy prior fuel = some (s, p)) :
    s = runSearch env fuel (startState env sx sy prior) ∧ s.queue = [] ∧
    p = reconstructPath env s.map toX toY sx sy := by
  simp only [FindPath] at h
  by_cases hq : (runSearch env fuel (startState env sx sy prior)).queue = []
  · rw [if_pos hq] at h
    have h2 := Option.some.inj h
    have h3 : runSearch env fuel (startState env sx sy prior) = s := congrArg Prod.fst h2
    have h4 : reconstructPath env (runSearch env fuel (startState env sx sy prior)).map
        toX toY sx sy = p := congrArg Prod.snd h2
    refine ⟨h3.symm, ?_, ?_⟩
    · rw [← h3]
      exact hq
    · rw [← h4, ← h3]
  · rw [if_neg hq] at h
    exact absurd h (by simp)

theorem FindPath_completes {env : SearchEnv} {sx sy : Int}
    {prior : Int → PathfindingNode} {fuel : Nat} (toX toY : Int)
    (hdone : (runSearch env fuel (startState env sx sy prior)).queue = []) :
    FindPath env toX toY sx sy prior fuel =
      some (runSearch env fuel (startState env sx sy prior),
        reconstructPath env (runSearch env fuel (startState env sx sy prior)).map
          toX toY sx sy) := by
  simp only [FindPath]
  rw [if_pos hdone]

theorem walkBack_length {env : SearchEnv} {m : Int → PathfindingNode} {sx sy : Int} :
    ∀ (fuel : Nat) (x y : Int), (walkBack env m sx sy fuel x y).length ≤ fuel := by
  intro fuel
  induction fuel with
  | zero =>
    intro x y
    exact le_refl 0
  | succ n ih =>
    intro x y
    by_cases hc : 0 < (m (idxOf env x y)).score ∧ (x ≠ sx ∨ y ≠ sy)
    · rw [walkBack_succ_pos hc]
      have := ih (m (idxOf env x y)).fromX (m (idxOf env x y)).fromY
      simp only [List.length_cons]
      omega
    · rw [walkBack_succ_neg hc]
      exact Nat.zero_le _

/-! ### Folds in which at most one offset acts -/

theorem foldl_all_skip {α β : Type} (f : β → α → β) :
    ∀ (l : List α), (∀ (b : β) (a : α), a ∈ l → f b a = b) → ∀ b, l.foldl f b = b := by
  intro l
  induction l with
  | nil =>
    intro _ b
    rfl
  | cons a t ih =>
    intro h b
    rw [List.foldl_cons, h b a (List.mem_cons_self a t)]
    exact ih (fun b2 q hq => h b2 q (List.mem_cons_of_mem _ hq)) b

theorem fold_single {α β : Type} (f : β → α → β) (p : α → Bool) (a0 : α) :
    ∀ (l : List α), (∀ (b : β) (a : α), a ∈ l → p a = false → f b a = b) →
    (∀ a ∈ l, p a = true → a = a0) → l.countP p = 1 →
    ∀ (b : β), l.foldl f b = f b a0 := by
  intro l
  induction l with
  | nil =>
    intro _ _ hc _
    simp [List.countP_nil] at hc
  | cons a t ih =>
    intro hskip huniq hc b
    rw [List.countP_cons] at hc
    rw [List.foldl_cons]
    by_cases hp : p a = true
    · have ha0 : a = a0 := huniq a (List.mem_cons_self a t) hp
      have hc0 : t.countP p = 0 := by
        rw [hp, if_pos rfl] at hc
        omega
      have hall : ∀ (b2 : β) (q : α), q ∈ t → f b2 q = b2 := by
        intro b2 q hq
        have hqf : p q = false := by
          have := List.countP_eq_zero.mp hc0 q hq
          revert this
          cases p q <;> simp
        exact hskip b2 q (List.mem_cons_of_mem _ hq) hqf
      rw [ha0]
      exact foldl_all_skip f t (fun b2 q hq => hall b2 q hq) (f b a0)
    · have hpf : p a = false := by
        revert hp
        cases p a <;> simp
      rw [hskip b a (List.mem_cons_self a t) hpf]
      refine ih (fun b2 q hq hf => hskip b2 q (List.mem_cons_of_mem _ hq) hf)
        (fun q hq ht => huniq q (List.mem_cons_of_mem _ hq) ht) ?_ b
      rw [hpf] at hc
      simp only [Bool.false_eq_true, if_false] at hc
      omega

theorem lowestScoreIndex_single (e : PathfindingNode) : lowestScoreIndex [e] = 0 := by
  unfold lowestScoreIndex
  rw [List.length_singleton, show List.range 1 = [0] from rfl, List.foldl_cons,
    List.foldl_nil]
  exact ite_self 0

theorem relaxNeighbor_skip_jump {env : SearchEnv} {node : PathfindingNode}
    {cellSdf maxD : Int} {s : SearchState} {o : NeighborOffset}
    (h : maxD < o.distance ∨ (¬(env.enableJumping = true) ∧ 1 < o.distance)) :
    relaxNeighbor env node cellSdf maxD s o = s := by
  unfold relaxNeighbor
  dsimp only
  rw [if_pos h]

theorem relaxNeighbor_skip_oob {env : SearchEnv} {node : PathfindingNode}
    {cellSdf maxD : Int} {s : SearchState} {o : NeighborOffset}
    (h1 : ¬(maxD < o.distance ∨ (¬(env.enableJumping = true) ∧ 1 < o.distance)))
    (h2 : node.x + o.x < 0 ∨ env.W ≤ node.x + o.x ∨ node.y + o.y < 0 ∨
      env.H ≤ node.y + o.y) :
    relaxNeighbor env node cellSdf maxD s o = s := by
  unfold relaxNeighbor
  dsimp only
  rw [if_neg h1, if_pos h2]

/-! ### Checked facts about the startup offset table -/

set_option maxRecDepth 40000 in
theorem nbo_pos : ∀ o ∈ neighborOffsets, 1 ≤ o.distance := by decide

set_option maxRecDepth 40000 in
theorem nbo_nz : ∀ o ∈ neighborOffsets, ¬(o.x = 0 ∧ o.y = 0) := by decide

set_option maxRecDepth 40000 in
theorem nbo_dist : ∀ o ∈ neighborOffsets,
    o.distance = (isqrt ((o.x * o.x + o.y * o.y).toNat) : Int) := by decide

set_option maxRecDepth 40000 in
theorem nbo_unit : ∀ o ∈ neighborOffsets, o.distance = 1 →
    o.x.natAbs + o.y.natAbs = 1 := by decide

set_option maxRecDepth 40000 in
theorem nbo_right_count :
    neighborOffsets.countP (fun o => decide (o.x = 1 ∧ o.y = 0)) = 1 := by decide

set_option maxRecDepth 40000 in
theorem nbo_right_uniq : ∀ o ∈ neighborOffsets, o.x = 1 → o.y = 0 →
    o.distance = 1 := by decide

set_option maxRecDepth 40000 in
theorem nbo_left_count :
    neighborOffsets.countP (fun o => decide (o.x = -1 ∧ o.y = 0)) = 1 := by decide

set_option maxRecDepth 40000 in
theorem nbo_left_uniq : ∀ o ∈ neighborOffsets, o.x = -1 → o.y = 0 →
    o.distance = 1 := by decide

theorem envOK_offsets {env : SearchEnv} (hW : 0 < env.W) (hH : 0 < env.H)
    (hsdf : ∀ i, 0 ≤ env.sdfCells i) (hfac : 0 ≤ env.sdfFactor)
    (hoff : env.offsets = neighborOffsets) : EnvOK env := by
  refine ⟨hW, hH, hsdf, ?_, ?_, ?_, ?_, hfac⟩ <;> rw [hoff]
  · exact nbo_pos
  · exact nbo_nz
  · exact nbo_dist
  · exact nbo_unit

theorem envOK_open2 : EnvOK envOpen2 :=
  envOK_offsets (by decide) (by decide) (fun i => by show (0:Int) ≤ 10; decide)
    (by decide) rfl

theorem envOK_blocked2 : EnvOK envBlocked2 := by
  refine envOK_offsets (by decide) (by decide) ?_ (by decide) rfl
  intro i
  show (0:Int) ≤ sdfBlocked2 i
  unfold sdfBlocked2
  split <;> decide

theorem envOK_unit : EnvOK envUnit := by
  refine ⟨by decide, by decide, fun i => by show (0:Int) ≤ 10; decide, ?_, ?_, ?_, ?_,
    by decide⟩
  · have h : ∀ o ∈ unitOffsets, 1 ≤ o.distance := by decide
    exact fun o ho => h o ho
  · have h : ∀ o ∈ unitOffsets, ¬(o.x = 0 ∧ o.y = 0) := by decide
    exact fun o ho => h o ho
  · have h : ∀ o ∈ unitOffsets,
        o.distance = (isqrt ((o.x * o.x + o.y * o.y).toNat) : Int) := by decide
    exact fun o ho => h o ho
  · have h : ∀ o ∈ unitOffsets, o.distance = 1 → o.x.natAbs + o.y.natAbs = 1 := by decide
    exact fun o ho => h o ho

/-! ### The literal clearance fields match the rebuild -/

theorem sdfOpen_eq_build :
    buildSdfCells 2 1 (fun _ => false) 0 0 = sdfOpen 0 ∧
    buildSdfCells 2 1 (fun _ => false) 0 1 = sdfOpen 1 := by decide

set_option maxRecDepth 40000 in
theorem sdfBlocked2_eq_build :
    buildSdfCells 2 1 blockedLeft 0 0 = sdfBlocked2 0 ∧
    buildSdfCells 2 1 blockedLeft 0 1 = sdfBlocked2 1 := by decide

/-! ### With a negative wall factor the two-cell search ping-pongs forever -/

theorem relaxPush_short {env : SearchEnv} {s : SearchState} (i : Int)
    (nn : PathfindingNode) (h : s.queue.length + 1 < (env.W * env.H).toNat) :
    relaxPush env s i nn =
      { map := updN s.map i nn, queue := s.queue ++ [nn],
        overflow := s.overflow, popped := s.popped } := by
  unfold relaxPush
  rw [if_neg (by omega)]

set_option maxHeartbeats 2000000 in
theorem cex3_step_right (a fx fy : Int) (m : Int → PathfindingNode) (pp : List Int)
    (hupd : (m 0).score = 0 ∨ a - 2 < (m 0).score) :
    searchStep envNeg2
        { map := m, queue := [⟨1, 0, fx, fy, a⟩], overflow := false, popped := pp } =
      { map := updN m 0 ⟨0, 0, 1, 0, a - 2⟩, queue := [⟨0, 0, 1, 0, a - 2⟩],
        overflow := false, popped := pp ++ [a] } := by
  have hq :
      ¬ ({ map := m, queue := [⟨1, 0, fx, fy, a⟩], overflow := false, popped := pp } : SearchState).queue = [] := by
    simp
  rw [searchStep_eq hq]
  dsimp only
  rw [lowestScoreIndex_single]
  rw [show ([(⟨1, 0, fx, fy, a⟩ : PathfindingNode)]).getD 0 noNode =
    (⟨1, 0, fx, fy, a⟩ : PathfindingNode) from rfl]
  rw [show ([(⟨1, 0, fx, fy, a⟩ : PathfindingNode)]).eraseIdx 0 =
    ([] : List PathfindingNode) from rfl]
  dsimp only
  have hcnt : envNeg2.offsets.countP (fun o => decide (o.x = -1 ∧ o.y = 0)) = 1 :=
    nbo_left_count
  have huniq : ∀ o ∈ envNeg2.offsets, (fun o => decide (o.x = -1 ∧ o.y = 0)) o = true →
      o = (⟨-1, 0, 1⟩ : NeighborOffset) := by
    intro o ho hp
    simp only [decide_eq_true_eq] at hp
    obtain ⟨hx, hy⟩ := hp
    have hd := nbo_left_uniq o ho hx hy
    cases o with
    | mk ox oy od =>
      dsimp only at hx hy hd
      rw [hx, hy, hd]
  have hskip : ∀ (b : SearchState) (o : NeighborOffset), o ∈ envNeg2.offsets →
      (fun o => decide (o.x = -1 ∧ o.y = 0)) o = false →
      relaxNeighbor envNeg2 ⟨1, 0, fx, fy, a⟩ (envNeg2.sdfCells (idxOf envNeg2 1 0))
        (maxDistAt envNeg2 1 0) b o = b := by
    intro b o ho hp
    simp only [decide_eq_false_iff_not] at hp
    by_cases hd : 1 < o.distance
    · exact relaxNeighbor_skip_jump (Or.inr ⟨by decide, hd⟩)
    · have h1 := nbo_pos o ho
      have hd1 : o.distance = 1 := by omega
      have hnat := nbo_unit o ho hd1
      have hcase : (o.x = 1 ∧ o.y = 0) ∨ (o.x = -1 ∧ o.y = 0) ∨ (o.x = 0 ∧ o.y = 1) ∨
          (o.x = 0 ∧ o.y = -1) := by omega
      have hW : envNeg2.W = 2 := by decide
      have hH : envNeg2.H = 1 := by decide
      refine relaxNeighbor_skip_oob ?_ ?_
      · rintro (hc | ⟨hj, hc⟩)
        · have hmd : maxDistAt envNeg2 1 0 = 9 := by decide
          rw [hmd] at hc
          omega
        · omega
      · dsimp only
        rcases hcase with ⟨hx1, hy1⟩ | ⟨hx1, hy1⟩ | ⟨hx1, hy1⟩ | ⟨hx1, hy1⟩
        · right
          left
          omega
        · exact absurd ⟨hx1, hy1⟩ hp
        · right
          right
          right
          omega
        · right
          right
          left
          omega
  have hfold := fold_single
    (relaxNeighbor envNeg2 ⟨1, 0, fx, fy, a⟩ (envNeg2.sdfCells (idxOf envNeg2 1 0))
      (maxDistAt envNeg2 1 0))
    (fun o => decide (o.x = -1 ∧ o.y = 0)) ⟨-1, 0, 1⟩
    envNeg2.offsets hskip huniq hcnt
    ({ map := m, queue := [], overflow := false, popped := pp ++ [a] } : SearchState)
  rw [hfold]
  have hallow : allowedMove envNeg2 ⟨-1, 0, 1⟩ 1 0 :=
    ⟨by decide, by decide, ⟨by decide, by decide, by decide, by decide⟩, by decide⟩
  have hmc : moveCost envNeg2 ⟨-1, 0, 1⟩ 1 0 = -2 := by decide
  have hup2 : (m (idxOf envNeg2 (1 + -1) (0 + 0))).score = 0 ∨
      a + moveCost envNeg2 ⟨-1, 0, 1⟩ 1 0 < (m (idxOf envNeg2 (1 + -1) (0 + 0))).score := by
    rw [hmc]
    show (m 0).score = 0 ∨ a + -2 < (m 0).score
    exact hupd
  rw [relaxNeighbor_update rfl rfl hallow hup2]
  have hlen :
      ({ map := m, queue := ([] : List PathfindingNode), overflow := false, popped := pp ++ [a] } : SearchState).queue.length + 1 < (envNeg2.W * envNeg2.H).toNat := by
    show ([] : List PathfindingNode).length + 1 < (envNeg2.W * envNeg2.H).toNat
    decide
  rw [relaxPush_short _ _ hlen]
  rfl

set_option maxHeartbeats 2000000 in
theorem cex3_step_left (a fx fy : Int) (m : Int → PathfindingNode) (pp : List Int)
    (hupd : (m 1).score = 0 ∨ a - 2 < (m 1).score) :
    searchStep envNeg2
        { map := m, queue := [⟨0, 0, fx, fy, a⟩], overflow := false, popped := pp } =
      { map := updN m 1 ⟨1, 0, 0, 0, a - 2⟩, queue := [⟨1, 0, 0, 0, a - 2⟩],
        overflow := false, popped := pp ++ [a] } := by
  have hq :
      ¬ ({ map := m, queue := [⟨0, 0, fx, fy, a⟩], overflow := false, popped := pp } : SearchState).queue = [] := by
    simp
  rw [searchStep_eq hq]
  dsimp only
  rw [lowestScoreIndex_single]
  rw [show ([(⟨0, 0, fx, fy, a⟩ : PathfindingNode)]).getD 0 noNode =
    (⟨0, 0, fx, fy, a⟩ : PathfindingNode) from rfl]
  rw [show ([(⟨0, 0, fx, fy, a⟩ : PathfindingNode)]).eraseIdx 0 =
    ([] : List PathfindingNode) from rfl]
  dsimp only
  have hcnt : envNeg2.offsets.countP (fun o => decide (o.x = 1 ∧ o.y = 0)) = 1 :=
    nbo_right_count
  have huniq : ∀ o ∈ envNeg2.offsets, (fun o => decide (o.x = 1 ∧ o.y = 0)) o = true →
      o = (⟨1, 0, 1⟩ : NeighborOffset) := by
    intro o ho hp
    simp only [decide_eq_true_eq] at hp
    obtain ⟨hx, hy⟩ := hp
    have hd := nbo_right_uniq o ho hx hy
    cases o with
    | mk ox oy od =>
      dsimp only at hx hy hd
      rw [hx, hy, hd]
  have hskip : ∀ (b : SearchState) (o : NeighborOffset), o ∈ envNeg2.offsets →
      (fun o => decide (o.x = 1 ∧ o.y = 0)) o = false →
      relaxNeighbor envNeg2 ⟨0, 0, fx, fy, a⟩ (envNeg2.sdfCells (idxOf envNeg2 0 0))
        (maxDistAt envNeg2 0 0) b o = b := by
    intro b o ho hp
    simp only [decide_eq_false_iff_not] at hp
    by_cases hd : 1 < o.distance
    · exact relaxNeighbor_skip_jump (Or.inr ⟨by decide, hd⟩)
    · have h1 := nbo_pos o ho
      have hd1 : o.distance = 1 := by omega
      have hnat := nbo_unit o ho hd1
      have hcase : (o.x = 1 ∧ o.y = 0) ∨ (o.x = -1 ∧ o.y = 0) ∨ (o.x = 0 ∧ o.y = 1) ∨
          (o.x = 0 ∧ o.y = -1) := by omega
      have hW : envNeg2.W = 2 := by decide
      have hH : envNeg2.H = 1 := by decide
      refine relaxNeighbor_skip_oob ?_ ?_
      · rintro (hc | ⟨hj, hc⟩)
        · have hmd : maxDistAt envNeg2 0 0 = 9 := by decide
          rw [hmd] at hc
          omega
        · omega
      · dsimp only
        rcases hcase with ⟨hx1, hy1⟩ | ⟨hx1, hy1⟩ | ⟨hx1, hy1⟩ | ⟨hx1, hy1⟩
        · exact absurd ⟨hx1, hy1⟩ hp
        · left
          omega
        · right
          right
          right
          omega
        · right
          right
          left
          omega
  have hfold := fold_single
    (relaxNeighbor envNeg2 ⟨0, 0, fx, fy, a⟩ (envNeg2.sdfCells (idxOf envNeg2 0 0))
      (maxDistAt envNeg2 0 0))
    (fun o => decide (o.x = 1 ∧ o.y = 0)) ⟨1, 0, 1⟩
    envNeg2.offsets hskip huniq hcnt
    ({ map := m, queue := [], overflow := false, popped := pp ++ [a] } : SearchState)
  rw [hfold]
  have hallow : allowedMove envNeg2 ⟨1, 0, 1⟩ 0 0 :=
    ⟨by decide, by decide, ⟨by decide, by decide, by decide, by decide⟩, by decide⟩
  have hmc : moveCost envNeg2 ⟨1, 0, 1⟩ 0 0 = -2 := by decide
  have hup2 : (m (idxOf envNeg2 (0 + 1) (0 + 0))).score = 0 ∨
      a + moveCost envNeg2 ⟨1, 0, 1⟩ 0 0 < (m (idxOf envNeg2 (0 + 1) (0 + 0))).score := by
    rw [hmc]
    show (m 1).score = 0 ∨ a + -2 < (m 1).score
    exact hupd
  rw [relaxNeighbor_update rfl rfl hallow hup2]
  have hlen :
      ({ map := m, queue := ([] : List PathfindingNode), overflow := false, popped := pp ++ [a] } : SearchState).queue.length + 1 < (envNeg2.W * envNeg2.H).toNat := by
    show ([] : List PathfindingNode).length + 1 < (envNeg2.W * envNeg2.H).toNat
    decide
  rw [relaxPush_short _ _ hlen]
  rfl

theorem cex3_never_empty :
    ∀ n : Nat, ∃ (a fx fy : Int) (pp : List Int) (m : Int → PathfindingNode),
      (runSearch envNeg2 n (startState envNeg2 0 0 (fun _ => noNode)) =
          { map := m, queue := [⟨0, 0, fx, fy, a⟩], overflow := false, popped := pp } ∧
        ((m 1).score = 0 ∨ a - 2 < (m 1).score) ∧ a ≤ (m 0).score) ∨
      (runSearch envNeg2 n (startState envNeg2 0 0 (fun _ => noNode)) =
          { map := m, queue := [⟨1, 0, fx, fy, a⟩], overflow := false, popped := pp } ∧
        ((m 0).score = 0 ∨ a - 2 < (m 0).score) ∧ a ≤ (m 1).score) := by
  intro n
  induction n with
  | zero =>
    refine ⟨1, 0, 0, [], (startState envNeg2 0 0 (fun _ => noNode)).map,
      Or.inl ⟨rfl, Or.inl ?_, ?_⟩⟩
    · show ((startState envNeg2 0 0 (fun _ => noNode)).map 1).score = 0
      decide
    · show (1:Int) ≤ ((startState envNeg2 0 0 (fun _ => noNode)).map 0).score
      decide
  | succ n ih =>
    obtain ⟨a, fx, fy, pp, m, hcase⟩ := ih
    have hstep : runSearch envNeg2 (n + 1) (startState envNeg2 0 0 (fun _ => noNode)) =
        runSearch envNeg2 1 (runSearch envNeg2 n (startState envNeg2 0 0 (fun _ => noNode))) :=
      runSearch_add envNeg2 n 1 _
    rcases hcase with ⟨heq, hupd, hle⟩ | ⟨heq, hupd, hle⟩
    · have h1 : runSearch envNeg2 1
          ({ map := m, queue := [⟨0, 0, fx, fy, a⟩], overflow := false, popped := pp } : SearchState) =
          searchStep envNeg2
            { map := m, queue := [⟨0, 0, fx, fy, a⟩], overflow := false, popped := pp } := by
        show (if ({ map := m, queue := [⟨0, 0, fx, fy, a⟩], overflow := false, popped := pp } : SearchState).queue = [] then _ else runSearch envNeg2 0 _) = _
        rw [if_neg (by simp)]
        rfl
      refine ⟨a - 2, 0, 0, pp ++ [a], updN m 1 ⟨1, 0, 0, 0, a - 2⟩, Or.inr ⟨?_, ?_, ?_⟩⟩
      · rw [hstep, heq, h1, cex3_step_left a fx fy m pp hupd]
      · right
        rw [updN_ne m _ (by decide : (0:Int) ≠ 1)]
        omega
      · rw [updN_at]
    · have h1 : runSearch envNeg2 1
          ({ map := m, queue := [⟨1, 0, fx, fy, a⟩], overflow := false, popped := pp } : SearchState) =
          searchStep envNeg2
            { map := m, queue := [⟨1, 0, fx, fy, a⟩], overflow := false, popped := pp } := by
        show (if ({ map := m, queue := [⟨1, 0, fx, fy, a⟩], overflow := false, popped := pp } : SearchState).queue = [] then _ else runSearch envNeg2 0 _) = _
        rw [if_neg (by simp)]
        rfl
      refine ⟨a - 2, 1, 0, pp ++ [a], updN m 0 ⟨0, 0, 1, 0, a - 2⟩, Or.inl ⟨?_, ?_, ?_⟩⟩
      · rw [hstep, heq, h1, cex3_step_right a fx fy m pp hupd]
      · right
        rw [updN_ne m _ (by decide : (1:Int) ≠ 0)]
        omega
      · rw [updN_at]

/-! ### Small concrete facts used to instantiate the claims -/

theorem inB_unit00 : inBounds envUnit 0 0 :=
  ⟨by decide, by decide, by decide, by decide⟩

theorem inB_unit10 : inBounds envUnit 1 0 :=
  ⟨by decide, by decide, by decide, by decide⟩

theorem Reach_anti_unit {env : SearchEnv} {u1 u2 : Int} (hu : u1 ≤ u2)
    {sx sy x y : Int} (h : Reach {env with unitSize := u2} sx sy x y) :
    Reach {env with unitSize := u1} sx sy x y := by
  induction h with
  | refl => exact Reach.refl
  | tail o ho hm h ih =>
    refine Reach.tail o ho ?_ ih
    obtain ⟨m1, m2, m3, m4⟩ := hm
    refine ⟨?_, m2, m3, ?_⟩
    · unfold maxDistAt idxOf at m1 ⊢
      dsimp only at m1 ⊢
      split_ifs at m1 ⊢ <;> omega
    · exact le_trans hu m4

/-! ### The claims -/

/-- C1 (amended): on every completed search, every record of the reconstructed
path other than the trailing start record lies on a cell whose clearance is at
least the unit size.  The seeded start cell itself is exempt: the code seeds it
without any clearance check, so the claim as stated fails on a blocked start
cell (see the counterexample). -/
theorem C1_path_clearance {env : SearchEnv} (hok : EnvOK env) {toX toY sx sy : Int}
    (hstart : inBounds env sx sy) (hto : inBounds env toX toY)
    {prior : Int → PathfindingNode} {fuel : Nat} {s : SearchState}
    {p : List PathfindingNode}
    (hrun : FindPath env toX toY sx sy prior fuel = some (s, p)) :
    ∀ e ∈ p.dropLast, env.unitSize ≤ env.sdfCells (idxOf env e.x e.y) := by
  obtain ⟨hs, hq, hp⟩ := FindPath_some hrun
  have hinv : SearchInv env sx sy noPend s := by
    rw [hs]
    exact runSearch_preserve hok hstart fuel _ (startState_inv hok hstart prior)
  intro e he
  rw [hp] at he
  unfold reconstructPath at he
  by_cases hpos : 0 < (s.map (toY * env.W + toX)).score
  · rw [if_pos hpos] at he
    rw [List.dropLast_concat] at he
    obtain ⟨cx, cy, hcb, hcs, hcns, hce⟩ := walkBack_elems hinv _ toX toY hto e he
    have hcoords := hinv.coords cx cy hcb hcs
    have hsdf := hinv.sdfAbove cx cy hcb hcs hcns
    rw [hce, hcoords.1, hcoords.2]
    exact hsdf
  · rw [if_neg hpos] at he
    simp at he

theorem C1_witness :
    envUnit.unitSize ≤ envUnit.sdfCells (idxOf envUnit 1 0) :=
  C1_path_clearance envOK_unit inB_unit00 inB_unit10
    (@FindPath_completes envUnit 0 0 (fun _ => noNode) 3 1 0 (by decide))
    ⟨1, 0, 0, 0, 2⟩ (by decide)

set_option maxRecDepth 100000 in
/-- C1 counterexample: on the two-by-one grid whose start cell is blocked
(clearance 0, below the unit size 1), the search still succeeds and the emitted
path contains the start cell, so the claim that every path cell satisfies the
clearance constraint is false for the seeded start. -/
theorem C1_counterexample :
    FindPath envBlocked2 1 0 0 0 (fun _ => noNode) 3 =
      some (runSearch envBlocked2 3 (startState envBlocked2 0 0 (fun _ => noNode)),
        reconstructPath envBlocked2
          (runSearch envBlocked2 3 (startState envBlocked2 0 0 (fun _ => noNode))).map
          1 0 0 0) ∧
    ((runSearch envBlocked2 3 (startState envBlocked2 0 0 (fun _ => noNode))).map
      (idxOf envBlocked2 1 0)).score = 2 ∧
    ((reconstructPath envBlocked2
      (runSearch envBlocked2 3 (startState envBlocked2 0 0 (fun _ => noNode))).map
      1 0 0 0).getD 1 noNode).x = 0 ∧
    ((reconstructPath envBlocked2
      (runSearch envBlocked2 3 (startState envBlocked2 0 0 (fun _ => noNode))).map
      1 0 0 0).getD 1 noNode).y = 0 ∧
    (reconstructPath envBlocked2
      (runSearch envBlocked2 3 (startState envBlocked2 0 0 (fun _ => noNode))).map
      1 0 0 0).length = 2 ∧
    envBlocked2.sdfCells (idxOf envBlocked2 0 0) < envBlocked2.unitSize :=
  ⟨@FindPath_completes envBlocked2 0 0 (fun _ => noNode) 3 1 0 (by decide), by decide,
    by decide, by decide, by decide, by decide⟩

/-- C2: after the clearance rebuild the field is the saturating minimum obstacle
distance: on every in-bounds cell it equals the capped minimum of the metric
distance over blocked cells, every blocked cell reads 0, and with no obstacles
every in-bounds cell reads exactly the cap 10. -/
theorem C2_clearance_rebuild {W H : Int} (blocked : Int → Bool) {f : Nat}
    (hf : f < 3) :
    (∀ cx cy, 0 ≤ cx → cx < W → 0 ≤ cy → cy < H →
      buildSdfCells W H blocked f (cy * W + cx) = specClearance W H blocked f cx cy) ∧
    (∀ cx cy, 0 ≤ cx → cx < W → 0 ≤ cy → cy < H → blocked (cy * W + cx) = true →
      buildSdfCells W H blocked f (cy * W + cx) = 0) ∧
    ((∀ i, blocked i = false) → ∀ cx cy, 0 ≤ cx → cx < W → 0 ≤ cy → cy < H →
      buildSdfCells W H blocked f (cy * W + cx) = 10) := by
  refine ⟨?_, ?_, ?_⟩
  · intro cx cy h1 h2 h3 h4
    exact buildSdfCells_eq_spec blocked hf ⟨h1, h2, h3, h4⟩
  · intro cx cy h1 h2 h3 h4 hb
    rw [buildSdfCells_eq_spec blocked hf ⟨h1, h2, h3, h4⟩]
    exact specClearance_blocked hf ⟨h1, h2, h3, h4⟩ hb
  · intro hempty cx cy h1 h2 h3 h4
    rw [buildSdfCells_eq_spec blocked hf ⟨h1, h2, h3, h4⟩]
    exact specClearance_empty (fun p _ => hempty _) cx cy

theorem C2_witness :
    buildSdfCells 2 1 blockedLeft 0 (0 * 2 + 1) = specClearance 2 1 blockedLeft 0 1 0 :=
  (C2_clearance_rebuild blockedLeft (by norm_num)).1 1 0 (by norm_num) (by norm_num)
    (by norm_num) (by norm_num)

/-- C4: a completed search signals success exactly through a positive stored goal
score: with a positive goal score the emitted path is the nonempty
walk-plus-start list, and with a nonpositive goal score the path is empty and
the reported length is zero; there is no other failure channel. -/
theorem C4_success_iff {env : SearchEnv} {toX toY sx sy : Int}
    {prior : Int → PathfindingNode} {fuel : Nat} {s : SearchState}
    {p : List PathfindingNode}
    (hrun : FindPath env toX toY sx sy prior fuel = some (s, p)) :
    (0 < (s.map (idxOf env toX toY)).score →
      p = walkBack env s.map sx sy (env.W * env.H).toNat toX toY ++
        [s.map (idxOf env sx sy)] ∧
      p.length = (walkBack env s.map sx sy (env.W * env.H).toNat toX toY).length + 1) ∧
    ((s.map (idxOf env toX toY)).score ≤ 0 → p = [] ∧ p.length = 0) := by
  obtain ⟨_, _, hp⟩ := FindPath_some hrun
  unfold reconstructPath at hp
  constructor
  · intro hpos
    have hpos2 : 0 < (s.map (toY * env.W + toX)).score := hpos
    rw [if_pos hpos2] at hp
    refine ⟨hp, ?_⟩
    rw [hp, List.length_append]
    rfl
  · intro hneg
    have hneg2 : (s.map (toY * env.W + toX)).score ≤ 0 := hneg
    rw [if_neg (by omega)] at hp
    exact ⟨hp, by rw [hp]; rfl⟩

theorem C4_witness :
    reconstructPath {envUnit with unitSize := 11}
        (runSearch {envUnit with unitSize := 11} 2
          (startState {envUnit with unitSize := 11} 0 0 (fun _ => noNode))).map
        1 0 0 0 = [] ∧
    (reconstructPath {envUnit with unitSize := 11}
        (runSearch {envUnit with unitSize := 11} 2
          (startState {envUnit with unitSize := 11} 0 0 (fun _ => noNode))).map
        1 0 0 0).length = 0 :=
  (C4_success_iff (@FindPath_completes {envUnit with unitSize := 11} 0 0
    (fun _ => noNode) 2 1 0 (by decide))).2 (by decide)

/-- C10: when the goal equals the in-bounds start, a completed search stores
score exactly 1 there and emits the one-record path holding the seeded start
record, whatever the blocked state or clearance of that cell and whatever the
unit size: the seed bypasses the clearance check. -/
theorem C10_start_goal {env : SearchEnv} (hok : EnvOK env) {sx sy : Int}
    (hstart : inBounds env sx sy) {prior : Int → PathfindingNode} {fuel : Nat}
    {s : SearchState} {p : List PathfindingNode}
    (hrun : FindPath env sx sy sx sy prior fuel = some (s, p)) :
    (s.map (idxOf env sx sy)).score = 1 ∧ p = [⟨sx, sy, -1, -1, 1⟩] := by
  obtain ⟨hs, hq, hp⟩ := FindPath_some hrun
  have hinv : SearchInv env sx sy noPend s := by
    rw [hs]
    exact runSearch_preserve hok hstart fuel _ (startState_inv hok hstart prior)
  have hseed := hinv.seed
  refine ⟨by rw [hseed], ?_⟩
  rw [hp]
  unfold reconstructPath
  have h1 : (s.map (idxOf env sx sy)).score = 1 := by rw [hseed]
  have h2 : (s.map (sy * env.W + sx)).score = 1 := h1
  rw [if_pos (by omega), walkBack_at_start, List.nil_append]
  rw [show s.map (sy * env.W + sx) = (⟨sx, sy, -1, -1, 1⟩ : PathfindingNode) from hseed]

theorem C10_witness :
    ((runSearch envUnit 3 (startState envUnit 0 0 (fun _ => noNode))).map
      (idxOf envUnit 0 0)).score = 1 ∧
    reconstructPath envUnit
      (runSearch envUnit 3 (startState envUnit 0 0 (fun _ => noNode))).map 0 0 0 0 =
      [⟨0, 0, -1, -1, 1⟩] :=
  C10_start_goal envOK_unit inB_unit00
    (@FindPath_completes envUnit 0 0 (fun _ => noNode) 3 0 0 (by decide))

/-- C3 (amended): under the program configuration — positive grid, nonnegative
clearance field, the startup offset table, nonnegative wall factor — the search
main loop empties its queue after finitely many iterations, and along the whole
run the open set never holds more than the grid cell count of entries (the
overflow clamp drops the pushed entry instead of growing the queue).  With a
negative wall factor the loop need not terminate, so the termination half of
the original claim is restricted to nonnegative factors (see the
counterexample). -/
theorem C3_terminates_bounded {env : SearchEnv} (hok : EnvOK env) {sx sy : Int}
    (hstart : inBounds env sx sy) (toX toY : Int) (prior : Int → PathfindingNode) :
    (∃ fuel s p, FindPath env toX toY sx sy prior fuel = some (s, p)) ∧
    ∀ n, (runSearch env n (startState env sx sy prior)).queue.length ≤
      (env.W * env.H).toNat := by
  constructor
  · obtain ⟨n, hn⟩ := runSearch_completes hok hstart prior
    exact ⟨n, _, _, FindPath_completes toX toY hn⟩
  · intro n
    exact (runSearch_preserve hok hstart n _ (startState_inv hok hstart prior)).qLen

theorem C3_witness :
    (runSearch envUnit 5 (startState envUnit 0 0 (fun _ => noNode))).queue.length ≤
      (envUnit.W * envUnit.H).toNat :=
  (C3_terminates_bounded envOK_unit inB_unit00 1 0 (fun _ => noNode)).2 5

theorem cex3_findpath_none (fuel : Nat) :
    FindPath envNeg2 1 0 0 0 (fun _ => noNode) fuel = none := by
  obtain ⟨a, fx, fy, pp, m, hcase⟩ := cex3_never_empty fuel
  simp only [FindPath]
  rcases hcase with ⟨heq, h2, h3⟩ | ⟨heq, h2, h3⟩ <;> rw [heq] <;> rw [if_neg (by simp)]

/-- C3 counterexample: with wall factor -1 on the obstacle-free two-by-one grid
the loop relaxes the two cells against each other forever (each pass lowers the
target score by 2), so the search has not terminated after a million
iterations and the queue still holds an entry; the general statement
`cex3_findpath_none` shows this for every iteration bound. -/
theorem C3_counterexample :
    FindPath envNeg2 1 0 0 0 (fun _ => noNode) 1000000 = none ∧
    (runSearch envNeg2 1000000
      (startState envNeg2 0 0 (fun _ => noNode))).queue.length = 1 := by
  refine ⟨cex3_findpath_none 1000000, ?_⟩
  obtain ⟨a, fx, fy, pp, m, hcase⟩ := cex3_never_empty 1000000
  rcases hcase with ⟨heq, _, _⟩ | ⟨heq, _, _⟩ <;> rw [heq] <;> rfl

/-- C5 (amended): on every completed, overflow-free, successful search the score
stored at the goal equals one (the seeded start score) plus the sum of the edge
costs recomputed over consecutive records of the emitted path in the same
integer arithmetic; the plain sum of edge costs therefore undershoots the goal
score by exactly the seed 1 (see the counterexample). -/
theorem C5_roundtrip {env : SearchEnv} (hok : EnvOK env) {toX toY sx sy : Int}
    (hstart : inBounds env sx sy) (hto : inBounds env toX toY)
    {prior : Int → PathfindingNode} {fuel : Nat} {s : SearchState}
    {p : List PathfindingNode}
    (hrun : FindPath env toX toY sx sy prior fuel = some (s, p))
    (hovf : s.overflow = false)
    (hsucc : 0 < (s.map (idxOf env toX toY)).score) :
    (s.map (idxOf env toX toY)).score = 1 + pathCostSum env p := by
  obtain ⟨hs, hq, hp⟩ := FindPath_some hrun
  have hinv : SearchInv env sx sy noPend s := by
    rw [hs]
    exact runSearch_preserve hok hstart fuel _ (startState_inv hok hstart prior)
  have hs1 : 1 ≤ (s.map (idxOf env toX toY)).score := hsucc
  have hchain := walk_spec hok hinv hq hovf ((env.W * env.H).toNat) toX toY hto hs1
    (countLower_le hok s.map _)
  have hscore := walkchain_score hok hinv hq hovf hchain hto hs1
  rw [hp]
  unfold reconstructPath
  have hpos2 : 0 < (s.map (toY * env.W + toX)).score := hsucc
  rw [if_pos hpos2]
  exact hscore

theorem C5_witness :
    ((runSearch envUnit 3 (startState envUnit 0 0 (fun _ => noNode))).map
      (idxOf envUnit 1 0)).score =
      1 + pathCostSum envUnit (reconstructPath envUnit
        (runSearch envUnit 3 (startState envUnit 0 0 (fun _ => noNode))).map 1 0 0 0) :=
  C5_roundtrip envOK_unit inB_unit00 inB_unit10
    (@FindPath_completes envUnit 0 0 (fun _ => noNode) 3 1 0 (by decide))
    (by decide) (by decide)

set_option maxRecDepth 100000 in
/-- C5 counterexample: on the obstacle-free two-by-one grid with factor 0 the
completed search stores score 2 at the goal while the sum of recomputed edge
costs over the emitted two-record path is 1, so the claimed equality of the
plain sum with the goal score fails (it is off by the seed score 1). -/
theorem C5_counterexample :
    FindPath envOpen2 1 0 0 0 (fun _ => noNode) 3 =
      some (runSearch envOpen2 3 (startState envOpen2 0 0 (fun _ => noNode)),
        reconstructPath envOpen2
          (runSearch envOpen2 3 (startState envOpen2 0 0 (fun _ => noNode))).map
          1 0 0 0) ∧
    ((runSearch envOpen2 3 (startState envOpen2 0 0 (fun _ => noNode))).map
      (idxOf envOpen2 1 0)).score = 2 ∧
    pathCostSum envOpen2 (reconstructPath envOpen2
      (runSearch envOpen2 3 (startState envOpen2 0 0 (fun _ => noNode))).map
      1 0 0 0) = 1 :=
  ⟨@FindPath_completes envOpen2 0 0 (fun _ => noNode) 3 1 0 (by decide), by decide,
    by decide⟩

/-- C6: path existence is antitone in the unit size: over the same grid,
clearance field, offset table and factor, if a completed overflow-free search
at unit size u1 leaves the goal unvisited (score 0), then every completed
search at any unit size u2 at least u1 leaves it unvisited too, because every
move admissible at u2 is admissible at u1 (the jump bound only grows and the
landing clearance test only loosens as the unit size shrinks). -/
theorem C6_unit_antitone {env : SearchEnv} (hok : EnvOK env) {u1 u2 : Int}
    (hu : u1 ≤ u2) {toX toY sx sy : Int} (hstart : inBounds env sx sy)
    (hto : inBounds env toX toY) {prior1 prior2 : Int → PathfindingNode}
    {fuel1 fuel2 : Nat} {s1 s2 : SearchState} {p1 p2 : List PathfindingNode}
    (h1 : FindPath {env with unitSize := u1} toX toY sx sy prior1 fuel1 =
      some (s1, p1))
    (hovf1 : s1.overflow = false)
    (h2 : FindPath {env with unitSize := u2} toX toY sx sy prior2 fuel2 =
      some (s2, p2))
    (hno : (s1.map (idxOf {env with unitSize := u1} toX toY)).score = 0) :
    (s2.map (idxOf {env with unitSize := u2} toX toY)).score = 0 := by
  have hok1 : EnvOK {env with unitSize := u1} :=
    ⟨hok.hW, hok.hH, hok.sdfNN, hok.offsetsPos, hok.offsetsNZ, hok.offsetsDist,
      hok.offsetsUnit, hok.factorNN⟩
  have hok2 : EnvOK {env with unitSize := u2} :=
    ⟨hok.hW, hok.hH, hok.sdfNN, hok.offsetsPos, hok.offsetsNZ, hok.offsetsDist,
      hok.offsetsUnit, hok.factorNN⟩
  obtain ⟨hs1, hq1, _⟩ := FindPath_some h1
  obtain ⟨hs2, hq2, _⟩ := FindPath_some h2
  have hinv1 : SearchInv {env with unitSize := u1} sx sy noPend s1 := by
    rw [hs1]
    exact runSearch_preserve hok1 hstart fuel1 _ (startState_inv hok1 hstart prior1)
  have hinv2 : SearchInv {env with unitSize := u2} sx sy noPend s2 := by
    rw [hs2]
    exact runSearch_preserve hok2 hstart fuel2 _ (startState_inv hok2 hstart prior2)
  by_contra hne
  have hpos : 1 ≤ (s2.map (idxOf {env with unitSize := u2} toX toY)).score := by
    rcases hinv2.zeroOne toX toY hto with h | h
    · exact absurd h hne
    · exact h
  have hreach2 := hinv2.reach toX toY hto hpos
  have hreach1 := Reach_anti_unit hu hreach2
  have hvis := (reach_visited hinv1 hq1 hovf1 hstart toX toY hreach1).2
  omega

theorem C6_witness :
    ((runSearch {envUnit with unitSize := 12} 2
      (startState {envUnit with unitSize := 12} 0 0 (fun _ => noNode))).map
      (idxOf {envUnit with unitSize := 12} 1 0)).score = 0 :=
  C6_unit_antitone envOK_unit (by decide) inB_unit00 inB_unit10
    (@FindPath_completes {envUnit with unitSize := 11} 0 0 (fun _ => noNode) 2 1 0
      (by decide))
    (by decide)
    (@FindPath_completes {envUnit with unitSize := 12} 0 0 (fun _ => noNode) 2 1 0
      (by decide))
    (by decide)

/-- C7 (amended): with a nonnegative wall factor, every run of the main loop
pops open-set entries with non-decreasing scores (so stopping at the first pop
of the goal is equivalent to exhausting the open set); with a negative factor
the popped scores can decrease, so the claim is restricted to nonnegative
factors (see the counterexample). -/
theorem C7_popped_monotone {env : SearchEnv} (hok : EnvOK env) {sx sy : Int}
    (hstart : inBounds env sx sy) (prior : Int → PathfindingNode) (n : Nat) :
    List.Chain' (fun a b => a ≤ b)
      ((runSearch env n (startState env sx sy prior)).popped) :=
  (runSearch_preserve hok hstart n _ (startState_inv hok hstart prior)).sorted.1

set_option maxHeartbeats 2000000 in
theorem C7_witness :
    List.Chain' (fun a b => a ≤ b)
      ((runSearch envUnit 3 (startState envUnit 0 0 (fun _ => noNode))).popped) :=
  C7_popped_monotone envOK_unit inB_unit00 (fun _ => noNode) 3

set_option maxRecDepth 100000 in
set_option maxHeartbeats 2000000 in
/-- C7 counterexample: with wall factor -1 on the obstacle-free two-by-one grid
the first two pops of the main loop carry scores 1 and then -1, a strictly
decreasing pair, so the popped scores are not monotonically non-decreasing in
general. -/
theorem C7_counterexample :
    (runSearch envNeg2 2 (startState envNeg2 0 0 (fun _ => noNode))).popped =
      [1, -1] ∧ (-1 : Int) < 1 :=
  ⟨by decide, by decide⟩

/-- C8 (amended): on every completed successful search the reconstruction walks
the from-links of the goal, bounded by the grid cell count, then appends the
start record and does NOT reverse: the first record of the emitted path is the
goal cell record and the last is the start record (the source comment defers
the swap to the caller), and the length is at most the cell count plus one. -/
theorem C8_path_order {env : SearchEnv} (hok : EnvOK env) {toX toY sx sy : Int}
    {prior : Int → PathfindingNode} {fuel : Nat} {s : SearchState}
    {p : List PathfindingNode}
    (hrun : FindPath env toX toY sx sy prior fuel = some (s, p))
    (hsucc : 0 < (s.map (idxOf env toX toY)).score) :
    p.head? = some (s.map (idxOf env toX toY)) ∧
    p.getLast? = some (s.map (idxOf env sx sy)) ∧
    p.length ≤ (env.W * env.H).toNat + 1 := by
  obtain ⟨hs, hq, hp⟩ := FindPath_some hrun
  have hpos2 : 0 < (s.map (toY * env.W + toX)).score := hsucc
  unfold reconstructPath at hp
  rw [if_pos hpos2] at hp
  have hWH : 0 < (env.W * env.H).toNat := by
    have := mul_pos hok.hW hok.hH
    omega
  obtain ⟨k, hk⟩ : ∃ k, (env.W * env.H).toNat = k + 1 :=
    ⟨(env.W * env.H).toNat - 1, by omega⟩
  refine ⟨?_, ?_, ?_⟩
  · by_cases hgs : toX = sx ∧ toY = sy
    · rw [hp, hgs.1, hgs.2, walkBack_at_start]
      rfl
    · have hor : toX ≠ sx ∨ toY ≠ sy := by
        by_cases h1 : toX = sx
        · exact Or.inr (fun h2 => hgs ⟨h1, h2⟩)
        · exact Or.inl h1
      rw [hp, hk, walkBack_succ_pos ⟨hsucc, hor⟩]
      rfl
  · rw [hp, List.getLast?_concat]
    rfl
  · rw [hp, List.length_append]
    have hwl : (walkBack env s.map sx sy ((env.W * env.H).toNat) toX toY).length ≤
        (env.W * env.H).toNat := walkBack_length _ _ _
    simp only [List.length_singleton]
    omega

theorem C8_witness :
    (reconstructPath envUnit
      (runSearch envUnit 3 (startState envUnit 0 0 (fun _ => noNode))).map
      1 0 0 0).head? =
      some ((runSearch envUnit 3 (startState envUnit 0 0 (fun _ => noNode))).map
        (idxOf envUnit 1 0)) ∧
    (reconstructPath envUnit
      (runSearch envUnit 3 (startState envUnit 0 0 (fun _ => noNode))).map
      1 0 0 0).getLast? =
      some ((runSearch envUnit 3 (startState envUnit 0 0 (fun _ => noNode))).map
        (idxOf envUnit 0 0)) ∧
    (reconstructPath envUnit
      (runSearch envUnit 3 (startState envUnit 0 0 (fun _ => noNode))).map
      1 0 0 0).length ≤ (envUnit.W * envUnit.H).toNat + 1 :=
  C8_path_order envOK_unit
    (@FindPath_completes envUnit 0 0 (fun _ => noNode) 3 1 0 (by decide)) (by decide)

set_option maxRecDepth 100000 in
/-- C8 counterexample: on the obstacle-free two-by-one grid the successful
search from (0,0) to (1,0) emits a two-record path whose FIRST record is the
goal cell (1,0) and whose last record is the start cell (0,0): the emitted
order runs goal to start, not start to goal as claimed, because the code never
reverses the collected records. -/
theorem C8_counterexample :
    FindPath envOpen2 1 0 0 0 (fun _ => noNode) 3 =
      some (runSearch envOpen2 3 (startState envOpen2 0 0 (fun _ => noNode)),
        reconstructPath envOpen2
          (runSearch envOpen2 3 (startState envOpen2 0 0 (fun _ => noNode))).map
          1 0 0 0) ∧
    ((reconstructPath envOpen2
      (runSearch envOpen2 3 (startState envOpen2 0 0 (fun _ => noNode))).map
      1 0 0 0).getD 0 noNode).x = 1 ∧
    ((reconstructPath envOpen2
      (runSearch envOpen2 3 (startState envOpen2 0 0 (fun _ => noNode))).map
      1 0 0 0).getD 0 noNode).y = 0 ∧
    ((reconstructPath envOpen2
      (runSearch envOpen2 3 (startState envOpen2 0 0 (fun _ => noNode))).map
      1 0 0 0).getD 1 noNode).x = 0 ∧
    ((reconstructPath envOpen2
      (runSearch envOpen2 3 (startState envOpen2 0 0 (fun _ => noNode))).map
      1 0 0 0).getD 1 noNode).y = 0 ∧
    (reconstructPath envOpen2
      (runSearch envOpen2 3 (startState envOpen2 0 0 (fun _ => noNode))).map
      1 0 0 0).length = 2 ∧ (0 : Int) < 1 :=
  ⟨@FindPath_completes envOpen2 0 0 (fun _ => noNode) 3 1 0 (by decide), by decide,
    by decide, by decide, by decide, by decide, by decide⟩

/-- C9: with jumping disabled, every two consecutive records of any emitted path
differ by exactly one axis step (the only offsets of distance 1 in the table
are the four axis neighbors, and the jump-switch guard rejects every longer
offset), on every completed overflow-free search. -/
theorem C9_unit_steps {env : SearchEnv} (hok : EnvOK env) {toX toY sx sy : Int}
    (hstart : inBounds env sx sy) (hto : inBounds env toX toY)
    (hjmp : env.enableJumping = false) {prior : Int → PathfindingNode} {fuel : Nat}
    {s : SearchState} {p : List PathfindingNode}
    (hrun : FindPath env toX toY sx sy prior fuel = some (s, p))
    (hovf : s.overflow = false) :
    List.Chain' (fun a b => (a.x - b.x).natAbs + (a.y - b.y).natAbs = 1) p := by
  obtain ⟨hs, hq, hp⟩ := FindPath_some hrun
  have hinv : SearchInv env sx sy noPend s := by
    rw [hs]
    exact runSearch_preserve hok hstart fuel _ (startState_inv hok hstart prior)
  rw [hp]
  unfold reconstructPath
  by_cases hpos : 0 < (s.map (toY * env.W + toX)).score
  · rw [if_pos hpos]
    have hs1 : 1 ≤ (s.map (idxOf env toX toY)).score := hpos
    have hchain := walk_spec hok hinv hq hovf ((env.W * env.H).toNat) toX toY hto hs1
      (countLower_le hok s.map _)
    exact walkchain_unit hok hinv hq hovf hjmp hchain hto hs1
  · rw [if_neg hpos]
    exact List.chain'_nil

theorem C9_witness :
    List.Chain' (fun a b => (a.x - b.x).natAbs + (a.y - b.y).natAbs = 1)
      (reconstructPath envUnit
        (runSearch envUnit 3 (startState envUnit 0 0 (fun _ => noNode))).map
        1 0 0 0) :=
  C9_unit_steps envOK_unit inB_unit00 inB_unit10 rfl
    (@FindPath_completes envUnit 0 0 (fun _ => noNode) 3 1 0 (by decide)) (by decide)
